import Mathlib

/-!
Verification of the reward-scoring module `verl/utils/reward_score/node_selection.py`.

The Python module defines:

* `validate_and_extract_llm_content(content)`: it first cleans the input with
  `re.sub(r"\s+", " ", content.strip())` and then runs

  `re.search(r"Intent:\s*(?P<intent>.+?)\s*Node:\s*(?P<node>.+?)\s*Reason:\s*(?P<reason>.+)$",
             cleaned, re.DOTALL | re.IGNORECASE)`.

  It returns `(False, None, None, None)` when the search fails or when one of
  the three captured groups strips to the empty string, and otherwise
  `(True, intent.strip(), node.strip(), reason.strip())`.

* `compute_score(solution_str, ground_truth, std_format, std_acc)`: runs the
  extractor; on failure returns score `-std_acc + -std_format`, `acc = False`
  and `pred` the raw solution prefixed with a format-failure tag; on success
  it normalizes the ground truth (splitting a single string on commas, then
  stripping and lower-casing every candidate, collecting them into a set),
  tests membership of the lower-cased extracted node, and returns the
  corresponding score, flag and reassembled prediction string.

Modelling decisions, stated once here:

* Strings are modelled as `List Char` internally; `String` is used at the
  function boundaries (in Lean 4.14 a `String` is a wrapper around its
  `List Char` field, so the two views coincide definitionally).
* Python's whitespace class `\s` and the no-argument `str.strip()` are
  modelled by `pyIsSpace`, covering the six ASCII whitespace characters.
  Unicode-only whitespace is not modelled.
* Case mapping (`str.lower()` and `re.IGNORECASE`) is modelled by
  `Char.toLower`, which lowercases exactly the ASCII letters.  Unicode-only
  case pairs are not modelled; all case-sensitive literals of the program
  ("Intent:", "Node:", "Reason:") are ASCII.
* The regular expression is embedded as an explicit backtracking matcher
  that follows the Python engine's strategy exactly:
  - `searchTriple` tries a full match at every start position from the left
    (`re.search` semantics);
  - a full match attempt (`matchAt`) is the literal `Intent:`
    (case-insensitive) followed by two middle segments and a tail;
  - a middle segment `\s*(.+?)\s*LIT` is matched by `segFind`, which
    enumerates the greedy `\s*` from longest to shortest, the lazy `.+?`
    from shortest to longest, the second `\s*` from longest to shortest,
    then the literal, and passes every candidate split to its continuation,
    backtracking (trying the next candidate) whenever the continuation
    fails - exactly the engine's innermost-first backtracking order;
  - the tail `\s*(?P<reason>.+)$` is matched by `tailFind`; the anchor `$`
    is modelled as end-of-string, which agrees with Python here because the
    matcher only ever runs on cleaned text, and cleaned text contains no
    newline (`$` without `re.MULTILINE` differs from end-of-string only
    before a trailing newline).
* The Python `set` of ground-truth candidates is modelled as a `List` used
  only through membership, which is equivalent to set membership.
* Python floats `std_format`/`std_acc` are modelled as rationals.
-/

/-- Python's ASCII whitespace class: the characters matched by `\s` and
stripped by `str.strip()` (space, tab, newline, carriage return, vertical
tab, form feed). -/
def pyIsSpace (c : Char) : Bool :=
  c == ' ' || c == '\t' || c == '\n' || c == '\r' || c == '\x0b' || c == '\x0c'

/-- Replace a whitespace character by a plain space, leave others unchanged. -/
def toSpace1 (c : Char) : Char :=
  if pyIsSpace c then ' ' else c

/-- Collapse every run of consecutive spaces to a single space (drop a space
whenever it is immediately followed by another space). -/
def squeeze : List Char → List Char
  | [] => []
  | [c] => [c]
  | a :: b :: t =>
    if a = ' ' ∧ b = ' ' then squeeze (b :: t) else a :: squeeze (b :: t)

/-- Python `str.strip()`: remove leading and trailing whitespace. -/
def pystrip (l : List Char) : List Char :=
  ((l.dropWhile pyIsSpace).reverse.dropWhile pyIsSpace).reverse

/-- The cleaning step `re.sub(r"\s+", " ", content.strip())`: strip the ends,
then collapse every maximal whitespace run to one space.  Mapping every
whitespace character to `' '` and then squeezing adjacent spaces performs
exactly that replacement. -/
def cleanL (s : List Char) : List Char :=
  squeeze ((pystrip s).map toSpace1)

/-- Length of the leading whitespace run (the maximal text `\s*` can consume). -/
def sRun (s : List Char) : Nat :=
  (s.takeWhile pyIsSpace).length

/-- Match a literal case-insensitively at the start of `s`
(`re.IGNORECASE` compares lower-cased characters); return the remainder. -/
def matchLitCI : List Char → List Char → Option (List Char)
  | [], s => some s
  | _ :: _, [] => none
  | l :: lt, c :: ct => if l.toLower = c.toLower then matchLitCI lt ct else none

/-- The list `[n, n-1, ..., 0]`: the order in which a greedy `\s*` tries
its possible lengths. -/
def descRange (n : Nat) : List Nat :=
  (List.range (n + 1)).map fun i => n - i

/-- Backtracking matcher for one middle segment `\s*(.+?)\s*LIT` of the
pattern.  `k` is the length taken by the first `\s*` (greedy: longest
first), `j + 1` the length taken by the lazy `.+?` (shortest first), `m`
the length taken by the second `\s*` (greedy), after which the literal must
match case-insensitively.  Every successful split is passed to the
continuation `cont group rest`; if the continuation fails the next split is
tried, giving exactly the engine's backtracking order. -/
def segFind {α : Type} (lit : List Char) (s : List Char)
    (cont : List Char → List Char → Option α) : Option α :=
  (descRange (sRun s)).findSome? fun k =>
    let s1 := s.drop k
    (List.range s1.length).findSome? fun j =>
      let g := s1.take (j + 1)
      let s2 := s1.drop (j + 1)
      (descRange (sRun s2)).findSome? fun m =>
        match matchLitCI lit (s2.drop m) with
        | some rest => cont g rest
        | none => none

/-- Backtracking matcher for the tail `\s*(?P<reason>.+)$`: the greedy `\s*`
tries longest first, then `.+` anchored by `$` must capture the whole
nonempty remainder. -/
def tailFind (s : List Char) : Option (List Char) :=
  (descRange (sRun s)).findSome? fun k =>
    let r := s.drop k
    if r.isEmpty then none else some r

/-- The literal `Intent:` of the pattern. -/
def intentLit : List Char := "Intent:".data

/-- The literal `Node:` of the pattern. -/
def nodeLit : List Char := "Node:".data

/-- The literal `Reason:` of the pattern. -/
def reasonLit : List Char := "Reason:".data

/-- One attempt of the full pattern at the start of `s`: the literal
`Intent:`, the `Node:` segment, the `Reason:` segment, then the tail.
Returns the three captured groups of the first (engine-order) full match. -/
def matchAt (s : List Char) : Option (List Char × List Char × List Char) :=
  match matchLitCI intentLit s with
  | none => none
  | some s1 =>
    segFind nodeLit s1 fun i s2 =>
      segFind reasonLit s2 fun n s3 =>
        match tailFind s3 with
        | some r => some (i, n, r)
        | none => none

/-- `re.search`: try a full match at every start position, leftmost first
(on the empty string the single attempt `matchAt []` is the result; it is
`none` because the pattern starts with a nonempty literal). -/
def searchTriple : List Char → Option (List Char × List Char × List Char)
  | [] => matchAt []
  | s@(_ :: t) =>
    match matchAt s with
    | some r => some r
    | none => searchTriple t

/-- `validate_and_extract_llm_content`.  The Python function returns the
4-tuple `(False, None, None, None)` on failure and
`(True, intent, node, reason)` on success; this is modelled by the sum
`Option (String × String × String)`, with `none` standing for the failure
tuple (validity flag false, all three fields null). -/
def validate_and_extract_llm_content (content : String) :
    Option (String × String × String) :=
  match searchTriple (cleanL content.data) with
  | none => none
  | some (i, n, r) =>
    let i' := pystrip i
    let n' := pystrip n
    let r' := pystrip r
    if i'.isEmpty || n'.isEmpty || r'.isEmpty then none
    else some (i'.asString, n'.asString, r'.asString)

/-- The `ground_truth` argument of `compute_score` is either a single string
(split on commas by the function) or an already-split sequence of strings. -/
inductive GroundTruth : Type
  | str : String → GroundTruth
  | seq : List String → GroundTruth

/-- Python `str.split(",")`: split on every comma, keeping empty pieces
(`"".split(",") == [""]`). -/
def splitComma : List Char → List (List Char)
  | [] => [[]]
  | c :: t =>
    let r := splitComma t
    if c = ',' then [] :: r else (c :: r.headD []) :: r.tail

/-- The normalized ground-truth candidate collection `true_nodes` built by
`compute_score`: split a single string on commas (or take the given
sequence), then strip and lower-case every candidate. -/
def true_nodes_of (ground_truth : GroundTruth) : List (List Char) :=
  let gl := match ground_truth with
    | .str s => splitComma s.data
    | .seq l => l.map String.data
  gl.map fun x => (pystrip x).map Char.toLower

/-- The dictionary returned by `compute_score`. -/
structure ScoreResult : Type where
  score : ℚ
  acc : Bool
  pred : String
deriving DecidableEq, Repr

/-- `compute_score`. -/
def compute_score (solution_str : String) (ground_truth : GroundTruth)
    (std_format : ℚ) (std_acc : ℚ) : ScoreResult :=
  match validate_and_extract_llm_content solution_str with
  | none =>
    { score := -std_acc + -std_format
      acc := false
      pred := "[❌Format]" ++ solution_str }
  | some (intent, node, reason) =>
    let true_nodes := true_nodes_of ground_truth
    if node.data.map Char.toLower ∈ true_nodes then
      { score := std_acc + std_format
        acc := true
        pred := "[✅Format✅Node]Intent: " ++ intent ++ "\nNode: " ++ node
                  ++ "\nReason: " ++ reason }
    else
      { score := -std_acc + std_format
        acc := false
        pred := "[✅Format❌Node]Intent: " ++ intent ++ "\nNode: " ++ node
                  ++ "\nReason: " ++ reason }

/-- Case-insensitive equality of character lists (equal lower-casings). -/
abbrev ciStr (a b : List Char) : Prop :=
  a.map Char.toLower = b.map Char.toLower

/-- Every character of `l` is whitespace. -/
def AllSpace (l : List Char) : Prop :=
  ∀ c ∈ l, pyIsSpace c = true

/-- `lit` occurs case-insensitively somewhere in `s`. -/
def OccursCI (lit s : List Char) : Prop :=
  ∃ a l b, s = a ++ l ++ b ∧ ciStr l lit

/-- Executable occurrence test: `lit` matches case-insensitively at the
start of some suffix of `s`. -/
def hasLitCI (lit : List Char) : List Char → Bool
  | [] => (matchLitCI lit []).isSome
  | s@(_ :: t) => (matchLitCI lit s).isSome || hasLitCI lit t

/-- Executable test: some suffix of `s` starts with a case-insensitive
`Node:` whose remainder contains a case-insensitive `Reason:`. -/
def hasNR : List Char → Bool
  | [] => false
  | s@(_ :: t) =>
    (match matchLitCI nodeLit s with
      | some r => hasLitCI reasonLit r
      | none => false) || hasNR t

/-- Executable test for an ordered `Intent:` then `Node:` then `Reason:`
occurrence (all case-insensitive, in this order, disjoint). -/
def hasSeq3 : List Char → Bool
  | [] => false
  | s@(_ :: t) =>
    (match matchLitCI intentLit s with
      | some r => hasNR r
      | none => false) || hasSeq3 t

/-- The three labels occur, each followed by its colon, in the fixed
Intent -> Node -> Reason order (as three disjoint case-insensitive
occurrences from left to right). -/
def OrderedLabels (s : List Char) : Prop :=
  ∃ x1 l1 x2 l2 x3 l3 x4,
    s = x1 ++ l1 ++ x2 ++ l2 ++ x3 ++ l3 ++ x4 ∧
      ciStr l1 intentLit ∧ ciStr l2 nodeLit ∧ ciStr l3 reasonLit

/-- No two consecutive whitespace characters. -/
def noWS2 : List Char → Bool
  | a :: b :: t => !(pyIsSpace a && pyIsSpace b) && noWS2 (b :: t)
  | _ => true

/-- `lit` matches case-insensitively at position `p` of `s`. -/
def litAt (lit s : List Char) (p : Nat) : Bool :=
  (matchLitCI lit (s.drop p)).isSome

/-- Position `idx` of `s` lies inside some case-insensitive occurrence of one
of the three label tokens. -/
def inLabelB (s : List Char) (idx : Nat) : Bool :=
  (List.range (idx + 1)).any fun p =>
    [intentLit, nodeLit, reasonLit].any fun lit =>
      decide (idx < p + lit.length) && litAt lit s p

/-- `s'` is `s` with only the letter-case of label tokens changed: the two
strings are case-insensitively equal, and every position where they differ
lies inside a case-insensitive occurrence of `Intent:`, `Node:` or
`Reason:` in `s`. -/
abbrev LabelRecase (s s' : List Char) : Prop :=
  ciStr s s' ∧ ∀ i < s.length, s.get? i ≠ s'.get? i → inLabelB s i = true

/-- Relate two optional results: both absent, or both present and related. -/
def OptRel {β β' : Type} (R : β → β' → Prop) : Option β → Option β' → Prop
  | none, none => True
  | some b, some b' => R b b'
  | _, _ => False

/-- Componentwise case-insensitive equality of extraction triples. -/
def TripleCI (t t' : List Char × List Char × List Char) : Prop :=
  ciStr t.1 t'.1 ∧ ciStr t.2.1 t'.2.1 ∧ ciStr t.2.2 t'.2.2

/-- Modelled from the spec: the pre-split sequence form of a comma-joined
ground truth - the claim's example pairs the string `A, b, C` with the
sequence of its comma-separated pieces with surrounding whitespace removed,
`[A, b, C]` as three separate labels. -/
def specPreSplit (g : String) : List String :=
  (splitComma g.data).map fun l => (pystrip l).asString

example : cleanL "  a \n\t b  ".data = "a b".data := by decide

example :
    validate_and_extract_llm_content "Intent: a Node: b Reason: c" =
      some ("a", "b", "c") := by decide

example :
    validate_and_extract_llm_content "Intent:  Node: Node-1 Reason: t" =
      none := by decide

example :
    validate_and_extract_llm_content "Node: Node-1 Intent: t Reason: t" =
      none := by decide

example :
    validate_and_extract_llm_content "Intent: t Node: Node-1" = none := by decide

example :
    validate_and_extract_llm_content "pre stuff Intent: t Node: Node-1 Reason: t post stuff" =
      some ("t", "Node-1", "t post stuff") := by decide

example :
    validate_and_extract_llm_content "Intent: need:complex Node: Node:with:colon Reason: has:special" =
      some ("need:complex", "Node:with:colon", "has:special") := by decide

example :
    validate_and_extract_llm_content "Intent: multi\nline test Node: Node-5\nReason: wrap\nhandling" =
      some ("multi line test", "Node-5", "wrap handling") := by decide

example :
    validate_and_extract_llm_content "iNtEnT: case test nOdE: Node-6 rEaSoN: insensitive" =
      some ("case test", "Node-6", "insensitive") := by decide

lemma dropWhile_idem (p : Char → Bool) (l : List Char) :
    (l.dropWhile p).dropWhile p = l.dropWhile p := by
  induction l with
  | nil => rfl
  | cons c t ih =>
    by_cases h : p c <;> simp [List.dropWhile_cons, h, ih]

lemma stripR_prefix (l : List Char) :
    ∃ z, l = (l.reverse.dropWhile pyIsSpace).reverse ++ z := by
  refine ⟨(l.reverse.takeWhile pyIsSpace).reverse, ?_⟩
  have h := List.takeWhile_append_dropWhile (p := pyIsSpace) (l := l.reverse)
  calc l = l.reverse.reverse := (List.reverse_reverse l).symm
    _ = (l.reverse.takeWhile pyIsSpace ++ l.reverse.dropWhile pyIsSpace).reverse := by rw [h]
    _ = (l.reverse.dropWhile pyIsSpace).reverse ++ (l.reverse.takeWhile pyIsSpace).reverse := by
          rw [List.reverse_append]

lemma dropWhile_head_false (p : Char → Bool) (l : List Char) (c : Char) (t : List Char)
    (h : l.dropWhile p = c :: t) : p c = false := by
  induction l with
  | nil => simp at h
  | cons a s ih =>
    by_cases ha : p a
    · rw [List.dropWhile_cons, if_pos ha] at h; exact ih h
    · rw [List.dropWhile_cons, if_neg ha] at h
      cases h; simpa using ha

lemma pystrip_idem (l : List Char) : pystrip (pystrip l) = pystrip l := by
  unfold pystrip
  set L := l.dropWhile pyIsSpace with hL
  set B := (L.reverse.dropWhile pyIsSpace).reverse with hB
  have hBpre : ∃ z, L = B ++ z := stripR_prefix L
  have hBL : B.dropWhile pyIsSpace = B := by
    cases hBc : B with
    | nil => rfl
    | cons c t =>
      obtain ⟨z, hz⟩ := hBpre
      have hLc : L = c :: (t ++ z) := by rw [hz, hBc]; rfl
      have : pyIsSpace c = false := by
        have hLdrop : L.dropWhile pyIsSpace = L := by
          rw [hL]; exact dropWhile_idem _ _
        exact dropWhile_head_false pyIsSpace L c (t ++ z) (by rw [hLdrop, hLc])
      rw [List.dropWhile_cons, if_neg (by simp [this])]
  rw [hBL]
  rw [List.reverse_reverse, dropWhile_idem]

lemma true_nodes_str_eq_pre_split (g : String) :
    true_nodes_of (.str g) = true_nodes_of (.seq (specPreSplit g)) := by
  unfold true_nodes_of specPreSplit
  simp only [List.map_map]
  apply List.map_congr_left
  intro x _
  simp only [Function.comp_apply]
  have : (((pystrip x).asString) : String).data = pystrip x := rfl
  rw [this, pystrip_idem]

/-- C1: when field extraction fails, `compute_score` returns score
`-std_format - std_acc`, `acc = false`, and `pred` equal to the raw solution
string prefixed with the format-failure tag, for every ground truth and
every pair of weights (so the ground truth is never consulted). -/
theorem invalid_format_score (sol : String) (gt : GroundTruth) (fw aw : ℚ)
    (h : validate_and_extract_llm_content sol = none) :
    compute_score sol gt fw aw =
      { score := -fw - aw, acc := false, pred := "[❌Format]" ++ sol } := by
  unfold compute_score
  rw [h]
  simp only [ScoreResult.mk.injEq]
  exact ⟨by ring, trivial, trivial⟩

theorem invalid_format_score_witness :
    validate_and_extract_llm_content "x" = none ∧
      compute_score "x" (.str "g") 1 3 =
        { score := -1 - 3, acc := false, pred := "[❌Format]" ++ "x" } :=
  ⟨by decide, invalid_format_score "x" (.str "g") 1 3 (by decide)⟩

/-- C2: when field extraction succeeds with fields `i`, `n`, `r`, the score is
`std_format + std_acc` with `acc = true` if the lower-cased node is among the
trimmed lower-cased ground-truth candidates, and `std_format - std_acc` with
`acc = false` otherwise; in both cases `pred` is the canonical
`Intent: ...\nNode: ...\nReason: ...` reassembly behind the matching status
tag. -/
theorem valid_format_score (sol : String) (gt : GroundTruth) (fw aw : ℚ)
    (i n r : String)
    (h : validate_and_extract_llm_content sol = some (i, n, r)) :
    compute_score sol gt fw aw =
      if n.data.map Char.toLower ∈ true_nodes_of gt then
        { score := fw + aw, acc := true,
          pred := "[✅Format✅Node]Intent: " ++ i ++ "\nNode: " ++ n
                    ++ "\nReason: " ++ r }
      else
        { score := fw - aw, acc := false,
          pred := "[✅Format❌Node]Intent: " ++ i ++ "\nNode: " ++ n
                    ++ "\nReason: " ++ r } := by
  unfold compute_score
  rw [h]
  by_cases hm : n.data.map Char.toLower ∈ true_nodes_of gt <;>
    simp only [hm, if_true, if_false, ScoreResult.mk.injEq] <;>
    exact ⟨by ring, trivial, trivial⟩

theorem valid_format_score_witness :
    validate_and_extract_llm_content "Intent: a Node: b Reason: c" =
        some ("a", "b", "c") ∧
      compute_score "Intent: a Node: b Reason: c" (.str "B") 1 3 =
        if ("b" : String).data.map Char.toLower ∈ true_nodes_of (.str "B") then
          { score := 1 + 3, acc := true,
            pred := "[✅Format✅Node]Intent: " ++ "a" ++ "\nNode: " ++ "b"
                      ++ "\nReason: " ++ "c" }
        else
          { score := 1 - 3, acc := false,
            pred := "[✅Format❌Node]Intent: " ++ "a" ++ "\nNode: " ++ "b"
                      ++ "\nReason: " ++ "c" } :=
  ⟨by decide, valid_format_score "Intent: a Node: b Reason: c" (.str "B") 1 3
    "a" "b" "c" (by decide)⟩

/-- C4: when the ordered three-label pattern does match but one of the three
captured groups is empty after trimming, extraction returns the failure
value (validity false, all fields null, modelled by `none`). -/
theorem empty_field_invalid (content : String) (i0 n0 r0 : List Char)
    (h : searchTriple (cleanL content.data) = some (i0, n0, r0))
    (he : pystrip i0 = [] ∨ pystrip n0 = [] ∨ pystrip r0 = []) :
    validate_and_extract_llm_content content = none := by
  unfold validate_and_extract_llm_content
  rw [h]
  rcases he with h1 | h1 | h1 <;> simp [h1]

theorem empty_field_invalid_witness :
    searchTriple (cleanL ("Intent:  Node: x Reason: y" : String).data) =
        some ([' '], "x".data, "y".data) ∧
      validate_and_extract_llm_content "Intent:  Node: x Reason: y" = none :=
  ⟨by decide,
    empty_field_invalid "Intent:  Node: x Reason: y" [' '] "x".data "y".data
      (by decide) (Or.inl (by decide))⟩

/-- C8: a comma-joined ground-truth string and its pre-split sequence of
labels produce identical `ScoreResult`s, because both are normalized to the
same trimmed lower-cased candidate set before comparison. -/
theorem ground_truth_split_equiv (sol : String) (g : String) (fw aw : ℚ) :
    compute_score sol (.str g) fw aw =
      compute_score sol (.seq (specPreSplit g)) fw aw := by
  unfold compute_score
  cases hv : validate_and_extract_llm_content sol with
  | none => rfl
  | some t =>
    obtain ⟨i, n, r⟩ := t
    simp only [true_nodes_str_eq_pre_split]

/-- C10: the delimiters inside the pattern are matched case-insensitively,
so an intent text containing `NODE:` is terminated there even though a
literal `Node:` occurs later; the remainder is absorbed into the following
fields. -/
theorem delimiter_case_insensitive :
    validate_and_extract_llm_content
        "Intent: alpha NODE: beta Node: gamma Reason: delta" =
      some ("alpha", "beta Node: gamma", "delta") := by decide

lemma findSome?_eq_some_ex {α β : Type} {l : List α} {f : α → Option β} {b : β}
    (h : List.findSome? f l = some b) : ∃ a ∈ l, f a = some b := by
  induction l with
  | nil => simp [List.findSome?_nil] at h
  | cons x t ih =>
    rw [List.findSome?_cons] at h
    cases hx : f x with
    | some v =>
      rw [hx] at h
      exact ⟨x, List.mem_cons_self x t, by rw [hx]; exact h⟩
    | none =>
      rw [hx] at h
      obtain ⟨a, ha, hfa⟩ := ih h
      exact ⟨a, List.mem_cons_of_mem _ ha, hfa⟩

lemma findSome?_isSome_ex {α β : Type} {l : List α} {f : α → Option β} {a : α}
    (ha : a ∈ l) (h : (f a).isSome = true) :
    (List.findSome? f l).isSome = true := by
  induction l with
  | nil => simp at ha
  | cons x t ih =>
    rw [List.findSome?_cons]
    cases hx : f x with
    | some v => simp
    | none =>
      rcases List.mem_cons.mp ha with rfl | ha'
      · rw [hx] at h; simp at h
      · exact ih ha'

lemma mem_descRange {n k : Nat} : k ∈ descRange n ↔ k ≤ n := by
  simp only [descRange, List.mem_map, List.mem_range]
  constructor
  · rintro ⟨i, hi, rfl⟩; omega
  · intro h; exact ⟨n - k, by omega, by omega⟩

lemma matchLitCI_sound : ∀ {lit s r : List Char}, matchLitCI lit s = some r →
    ∃ l, s = l ++ r ∧ ciStr l lit := by
  intro lit
  induction lit with
  | nil =>
    intro s r h
    simp only [matchLitCI, Option.some.injEq] at h
    exact ⟨[], by simp [h], by simp [ciStr]⟩
  | cons lc lt ih =>
    intro s r h
    cases s with
    | nil => simp [matchLitCI] at h
    | cons c ct =>
      simp only [matchLitCI] at h
      by_cases he : lc.toLower = c.toLower
      · rw [if_pos he] at h
        obtain ⟨l, rfl, hci⟩ := ih h
        refine ⟨c :: l, rfl, ?_⟩
        simp only [ciStr, List.map_cons, List.cons.injEq] at hci ⊢
        exact ⟨he.symm, hci⟩
      · rw [if_neg he] at h; cases h

lemma matchLitCI_complete : ∀ {lit l : List Char}, ciStr l lit →
    ∀ r, matchLitCI lit (l ++ r) = some r := by
  intro lit
  induction lit with
  | nil =>
    intro l h r
    have hl : l = [] := by
      have := congrArg List.length h
      simpa [ciStr] using this
    subst hl
    simp [matchLitCI]
  | cons lc lt ih =>
    intro l h r
    cases l with
    | nil => simp [ciStr] at h
    | cons c ct =>
      simp only [ciStr, List.map_cons, List.cons.injEq] at h
      obtain ⟨h1, h2⟩ := h
      simp only [List.cons_append, matchLitCI, if_pos h1.symm]
      exact ih h2 r

lemma allSpace_take_of_le_sRun {s : List Char} {k : Nat} (h : k ≤ sRun s) :
    AllSpace (s.take k) := by
  intro c hc
  have h1 : s.take k = (s.takeWhile pyIsSpace).take k := by
    conv_lhs => rw [← List.takeWhile_append_dropWhile (p := pyIsSpace) (l := s)]
    rw [List.take_append_eq_append_take]
    have : k - (s.takeWhile pyIsSpace).length = 0 := by
      unfold sRun at h; omega
    rw [this]
    simp
  rw [h1] at hc
  exact List.mem_takeWhile_imp (List.take_subset _ _ hc)

lemma le_sRun_append {sp : List Char} (rest : List Char) (h : AllSpace sp) :
    sp.length ≤ sRun (sp ++ rest) := by
  induction sp with
  | nil => simp
  | cons c t ih =>
    have hc : pyIsSpace c = true := h c (List.mem_cons_self _ _)
    have ht : AllSpace t := fun d hd => h d (List.mem_cons_of_mem _ hd)
    simp only [List.cons_append, sRun, List.takeWhile_cons, hc, if_true,
      List.length_cons]
    have := ih ht
    unfold sRun at this
    omega

lemma segFind_sound {α : Type} {lit s : List Char}
    {cont : List Char → List Char → Option α} {a : α}
    (h : segFind lit s cont = some a) :
    ∃ sp g sp2 l rest, s = sp ++ g ++ sp2 ++ l ++ rest ∧ AllSpace sp ∧
      AllSpace sp2 ∧ g ≠ [] ∧ ciStr l lit ∧ cont g rest = some a := by
  unfold segFind at h
  obtain ⟨k, hk, h⟩ := findSome?_eq_some_ex h
  dsimp only at h
  obtain ⟨j, hj, h⟩ := findSome?_eq_some_ex h
  obtain ⟨m, hm, h⟩ := findSome?_eq_some_ex h
  cases hml : matchLitCI lit (((s.drop k).drop (j + 1)).drop m) with
  | none => rw [hml] at h; cases h
  | some rest =>
    rw [hml] at h
    obtain ⟨l, hsplit, hci⟩ := matchLitCI_sound hml
    refine ⟨s.take k, (s.drop k).take (j + 1), ((s.drop k).drop (j + 1)).take m,
      l, rest, ?_, allSpace_take_of_le_sRun (mem_descRange.mp hk),
      allSpace_take_of_le_sRun (mem_descRange.mp hm), ?_, hci, h⟩
    · have e1 : s = s.take k ++ s.drop k := (List.take_append_drop k s).symm
      have e2 : s.drop k = (s.drop k).take (j + 1) ++ (s.drop k).drop (j + 1) :=
        (List.take_append_drop _ _).symm
      have e3 : (s.drop k).drop (j + 1) =
          ((s.drop k).drop (j + 1)).take m ++ (l ++ rest) := by
        conv_lhs => rw [← List.take_append_drop m ((s.drop k).drop (j + 1))]
        rw [hsplit]
      calc s = s.take k ++ s.drop k := e1
        _ = s.take k ++ ((s.drop k).take (j + 1) ++ (s.drop k).drop (j + 1)) := by
              rw [← e2]
        _ = s.take k ++ ((s.drop k).take (j + 1) ++
              (((s.drop k).drop (j + 1)).take m ++ (l ++ rest))) := by rw [← e3]
        _ = s.take k ++ (s.drop k).take (j + 1) ++
              ((s.drop k).drop (j + 1)).take m ++ l ++ rest := by
              simp [List.append_assoc]
    · have hjr := List.mem_range.mp hj
      intro he
      have hlen : ((s.drop k).take (j + 1)).length = 0 := by rw [he]; rfl
      rw [List.length_take] at hlen
      omega

lemma segFind_complete {α : Type} {lit : List Char}
    {sp g sp2 l rest : List Char} {cont : List Char → List Char → Option α}
    (hsp : AllSpace sp) (hsp2 : AllSpace sp2) (hg : g ≠ []) (hl : ciStr l lit)
    (hc : (cont g rest).isSome = true) :
    (segFind lit (sp ++ g ++ sp2 ++ l ++ rest) cont).isSome = true := by
  unfold segFind
  have hassoc : sp ++ g ++ sp2 ++ l ++ rest = sp ++ (g ++ (sp2 ++ (l ++ rest))) := by
    simp [List.append_assoc]
  rw [hassoc]
  apply findSome?_isSome_ex (a := sp.length)
  · exact mem_descRange.mpr (le_sRun_append _ hsp)
  · dsimp only
    rw [List.drop_left]
    obtain ⟨j, hjlen⟩ : ∃ j, g.length = j + 1 := by
      cases hgl : g.length with
      | zero => exact absurd (List.length_eq_zero.mp hgl) hg
      | succ j => exact ⟨j, rfl⟩
    apply findSome?_isSome_ex (a := j)
    · rw [List.mem_range]
      have : g.length ≤ (g ++ (sp2 ++ (l ++ rest))).length := by
        rw [List.length_append]; omega
      omega
    · dsimp only
      rw [← hjlen, List.take_left, List.drop_left]
      apply findSome?_isSome_ex (a := sp2.length)
      · exact mem_descRange.mpr (le_sRun_append _ hsp2)
      · dsimp only
        rw [List.drop_left, matchLitCI_complete hl rest]
        exact hc

lemma tailFind_sound {s r : List Char} (h : tailFind s = some r) :
    ∃ sp, s = sp ++ r ∧ AllSpace sp ∧ r ≠ [] := by
  unfold tailFind at h
  obtain ⟨k, hk, h⟩ := findSome?_eq_some_ex h
  by_cases he : (s.drop k).isEmpty
  · rw [if_pos he] at h; cases h
  · rw [if_neg he] at h
    cases h
    refine ⟨s.take k, (List.take_append_drop k s).symm,
      allSpace_take_of_le_sRun (mem_descRange.mp hk), ?_⟩
    intro hnil
    rw [hnil] at he
    exact he rfl

lemma tailFind_complete {sp r : List Char} (hsp : AllSpace sp) (hr : r ≠ []) :
    (tailFind (sp ++ r)).isSome = true := by
  unfold tailFind
  apply findSome?_isSome_ex (a := sp.length)
  · exact mem_descRange.mpr (le_sRun_append _ hsp)
  · dsimp only
    rw [List.drop_left]
    rw [if_neg (by simpa [List.isEmpty_iff] using hr)]
    rfl

lemma matchAt_sound {s : List Char} {i n r : List Char}
    (h : matchAt s = some (i, n, r)) :
    ∃ l1 sp1 sp2 l2 sp3 sp4 l3 sp5,
      s = l1 ++ sp1 ++ i ++ sp2 ++ l2 ++ sp3 ++ n ++ sp4 ++ l3 ++ sp5 ++ r ∧
        ciStr l1 intentLit ∧ ciStr l2 nodeLit ∧ ciStr l3 reasonLit ∧
        AllSpace sp1 ∧ AllSpace sp2 ∧ AllSpace sp3 ∧ AllSpace sp4 ∧
        AllSpace sp5 ∧ i ≠ [] ∧ n ≠ [] ∧ r ≠ [] := by
  unfold matchAt at h
  cases h1 : matchLitCI intentLit s with
  | none => rw [h1] at h; cases h
  | some s1 =>
    rw [h1] at h
    obtain ⟨l1, rfl, hci1⟩ := matchLitCI_sound h1
    obtain ⟨sp1, g1, sp2, l2, rest1, he1, hsp1, hsp2, hg1, hci2, hcont1⟩ :=
      segFind_sound h
    obtain ⟨sp3, g2, sp4, l3, rest2, he2, hsp3, hsp4, hg2, hci3, hcont2⟩ :=
      segFind_sound hcont1
    cases h2 : tailFind rest2 with
    | none => rw [h2] at hcont2; cases hcont2
    | some rr =>
      rw [h2] at hcont2
      injection hcont2 with hh
      obtain ⟨rfl, rfl, rfl⟩ : g1 = i ∧ g2 = n ∧ rr = r := by
        simpa [Prod.ext_iff] using hh
      obtain ⟨sp5, he3, hsp5, hrne⟩ := tailFind_sound h2
      refine ⟨l1, sp1, sp2, l2, sp3, sp4, l3, sp5, ?_, hci1, hci2, hci3,
        hsp1, hsp2, hsp3, hsp4, hsp5, hg1, hg2, hrne⟩
      rw [he1, he2, he3]
      simp [List.append_assoc]

lemma matchAt_complete {l1 sp1 g1 sp2 l2 sp3 g2 sp4 l3 sp5 r : List Char}
    (hci1 : ciStr l1 intentLit) (hci2 : ciStr l2 nodeLit)
    (hci3 : ciStr l3 reasonLit)
    (hsp1 : AllSpace sp1) (hsp2 : AllSpace sp2) (hsp3 : AllSpace sp3)
    (hsp4 : AllSpace sp4) (hsp5 : AllSpace sp5)
    (hg1 : g1 ≠ []) (hg2 : g2 ≠ []) (hr : r ≠ []) :
    (matchAt (l1 ++ sp1 ++ g1 ++ sp2 ++ l2 ++ sp3 ++ g2 ++ sp4 ++ l3 ++ sp5
      ++ r)).isSome = true := by
  unfold matchAt
  have e : l1 ++ sp1 ++ g1 ++ sp2 ++ l2 ++ sp3 ++ g2 ++ sp4 ++ l3 ++ sp5 ++ r =
      l1 ++ (sp1 ++ g1 ++ sp2 ++ l2 ++ (sp3 ++ g2 ++ sp4 ++ l3 ++ (sp5 ++ r))) := by
    simp [List.append_assoc]
  rw [e, matchLitCI_complete hci1]
  dsimp only
  apply segFind_complete hsp1 hsp2 hg1 hci2
  dsimp only
  apply segFind_complete hsp3 hsp4 hg2 hci3
  dsimp only
  cases ht : tailFind (sp5 ++ r) with
  | none =>
    have hcomp := tailFind_complete hsp5 hr
    rw [ht] at hcomp
    simp at hcomp
  | some rr => simp

lemma searchTriple_sound : ∀ {s : List Char} {t},
    searchTriple s = some t →
      ∃ p, matchAt (List.drop p s) = some t ∧
        ∀ q < p, matchAt (List.drop q s) = none := by
  intro s
  induction s with
  | nil =>
    intro t h
    rw [searchTriple] at h
    exact ⟨0, h, by omega⟩
  | cons c tl ih =>
    intro t h
    rw [searchTriple] at h
    cases hm : matchAt (c :: tl) with
    | some v =>
      rw [hm] at h
      refine ⟨0, ?_, by omega⟩
      rw [List.drop_zero, hm]
      exact h
    | none =>
      rw [hm] at h
      simp only at h
      obtain ⟨p, h1, h2⟩ := ih h
      refine ⟨p + 1, by simpa using h1, ?_⟩
      intro q hq
      cases q with
      | zero => simpa using hm
      | succ q' =>
        have := h2 q' (by omega)
        simpa using this

lemma searchTriple_complete : ∀ {s : List Char} (p : Nat),
    (matchAt (s.drop p)).isSome = true → (searchTriple s).isSome = true := by
  intro s
  induction s with
  | nil =>
    intro p h
    rw [List.drop_nil] at h
    rw [searchTriple]
    exact h
  | cons c tl ih =>
    intro p h
    rw [searchTriple]
    cases hm : matchAt (c :: tl) with
    | some v => simp
    | none =>
      simp only
      cases p with
      | zero => rw [List.drop_zero] at h; rw [hm] at h; simp at h
      | succ p' => exact ih p' (by simpa using h)

lemma validate_some_unfold {content : String} {i n r : String}
    (h : validate_and_extract_llm_content content = some (i, n, r)) :
    ∃ i0 n0 r0, searchTriple (cleanL content.data) = some (i0, n0, r0) ∧
      pystrip i0 = i.data ∧ pystrip n0 = n.data ∧ pystrip r0 = r.data ∧
      i.data ≠ [] ∧ n.data ≠ [] ∧ r.data ≠ [] := by
  unfold validate_and_extract_llm_content at h
  cases hs : searchTriple (cleanL content.data) with
  | none => rw [hs] at h; cases h
  | some t =>
    obtain ⟨i0, n0, r0⟩ := t
    rw [hs] at h
    dsimp only at h
    by_cases hcond : ((pystrip i0).isEmpty || (pystrip n0).isEmpty
        || (pystrip r0).isEmpty) = true
    · rw [if_pos hcond] at h; cases h
    · rw [if_neg hcond] at h
      obtain ⟨⟨hne1, hne2⟩, hne3⟩ :
          (¬(pystrip i0).isEmpty = true ∧ ¬(pystrip n0).isEmpty = true)
            ∧ ¬(pystrip r0).isEmpty = true := by
        simpa [Bool.or_eq_true, not_or] using hcond
      injection h with hh
      obtain ⟨e1, e2, e3⟩ : (pystrip i0).asString = i ∧
          (pystrip n0).asString = n ∧ (pystrip r0).asString = r := by
        simpa [Prod.ext_iff] using hh
      refine ⟨i0, n0, r0, rfl, ?_, ?_, ?_, ?_, ?_, ?_⟩
      · rw [← e1]; rfl
      · rw [← e2]; rfl
      · rw [← e3]; rfl
      · rw [← e1]
        simpa [List.isEmpty_iff] using hne1
      · rw [← e2]
        simpa [List.isEmpty_iff] using hne2
      · rw [← e3]
        simpa [List.isEmpty_iff] using hne3

theorem squeeze_subset : ∀ (t : List Char) (c : Char), c ∈ squeeze t → c ∈ t
  | [], c, hc => by simp [squeeze] at hc
  | [a], c, hc => by simpa [squeeze] using hc
  | a :: b :: t, c, hc => by
    by_cases h : a = ' ' ∧ b = ' '
    · simp only [squeeze, if_pos h] at hc
      exact List.mem_cons_of_mem _ (squeeze_subset (b :: t) c hc)
    · simp only [squeeze, if_neg h] at hc
      rcases List.mem_cons.mp hc with rfl | hc'
      · exact List.mem_cons_self _ _
      · exact List.mem_cons_of_mem _ (squeeze_subset (b :: t) c hc')

theorem squeeze_cons_head : ∀ (b : Char) (t : List Char),
    ∃ t', squeeze (b :: t) = b :: t'
  | b, [] => ⟨[], rfl⟩
  | b, c :: t => by
    by_cases h : b = ' ' ∧ c = ' '
    · obtain ⟨t', ht⟩ := squeeze_cons_head c t
      refine ⟨t', ?_⟩
      simp only [squeeze, if_pos h, ht]
      rw [h.1, h.2]
    · exact ⟨squeeze (c :: t), by simp only [squeeze, if_neg h]⟩

theorem squeeze_noWS2 : ∀ (u : List Char),
    (∀ c ∈ u, pyIsSpace c = true → c = ' ') → noWS2 (squeeze u) = true
  | [], _ => rfl
  | [_], _ => rfl
  | a :: b :: t, h => by
    by_cases hab : a = ' ' ∧ b = ' '
    · simp only [squeeze, if_pos hab]
      exact squeeze_noWS2 (b :: t)
        (fun c hc hw => h c (List.mem_cons_of_mem _ hc) hw)
    · simp only [squeeze, if_neg hab]
      obtain ⟨t', ht'⟩ := squeeze_cons_head b t
      rw [ht']
      simp only [noWS2, Bool.and_eq_true]
      constructor
      · by_cases wsa : pyIsSpace a = true
        · have ha : a = ' ' := h a (List.mem_cons_self _ _) wsa
          by_cases wsb : pyIsSpace b = true
          · have hb : b = ' ' := h b (List.mem_cons_of_mem _ (List.mem_cons_self _ _)) wsb
            exact absurd ⟨ha, hb⟩ hab
          · simp [wsa, Bool.eq_false_iff.mpr wsb]
        · simp [Bool.eq_false_iff.mpr wsa]
      · rw [← ht']
        exact squeeze_noWS2 (b :: t)
          (fun c hc hw => h c (List.mem_cons_of_mem _ hc) hw)

theorem noWS2_append_right : ∀ (a b : List Char),
    noWS2 (a ++ b) = true → noWS2 b = true
  | [], _, h => h
  | [x], b, h => by
    cases b with
    | nil => rfl
    | cons y b' =>
      simp only [List.cons_append, List.nil_append, noWS2, Bool.and_eq_true] at h
      exact h.2
  | x :: y :: a', b, h => by
    simp only [List.cons_append, noWS2, Bool.and_eq_true] at h
    exact noWS2_append_right (y :: a') b h.2

theorem noWS2_append_left : ∀ (a b : List Char),
    noWS2 (a ++ b) = true → noWS2 a = true
  | [], _, _ => rfl
  | [_], _, _ => rfl
  | x :: y :: a', b, h => by
    simp only [List.cons_append, noWS2, Bool.and_eq_true] at h
    simp only [noWS2, Bool.and_eq_true]
    exact ⟨h.1, noWS2_append_left (y :: a') b h.2⟩

lemma map_toSpace1_ws (x : List Char) :
    ∀ c ∈ x.map toSpace1, pyIsSpace c = true → c = ' ' := by
  intro c hc hw
  obtain ⟨d, _, rfl⟩ := List.mem_map.mp hc
  unfold toSpace1 at hw ⊢
  by_cases hd : pyIsSpace d = true
  · rw [if_pos hd]
  · rw [if_neg hd] at hw
    exact absurd hw hd

lemma cleanL_wsIsSpace (s : List Char) :
    ∀ c ∈ cleanL s, pyIsSpace c = true → c = ' ' := by
  intro c hc hw
  exact map_toSpace1_ws (pystrip s) c (squeeze_subset _ c hc) hw

lemma cleanL_noWS2 (s : List Char) : noWS2 (cleanL s) = true :=
  squeeze_noWS2 _ (map_toSpace1_ws (pystrip s))

lemma pystrip_infix (x : List Char) :
    ∃ u v, x = u ++ pystrip x ++ v ∧ AllSpace u ∧ AllSpace v := by
  refine ⟨x.takeWhile pyIsSpace,
    ((x.dropWhile pyIsSpace).reverse.takeWhile pyIsSpace).reverse, ?_,
    fun c hc => List.mem_takeWhile_imp hc,
    fun c hc => List.mem_takeWhile_imp (List.mem_reverse.mp hc)⟩
  have h := List.takeWhile_append_dropWhile (p := pyIsSpace)
    (l := (x.dropWhile pyIsSpace).reverse)
  calc x = x.takeWhile pyIsSpace ++ x.dropWhile pyIsSpace :=
        (List.takeWhile_append_dropWhile _ _).symm
    _ = x.takeWhile pyIsSpace ++ ((x.dropWhile pyIsSpace).reverse).reverse := by
        rw [List.reverse_reverse]
    _ = x.takeWhile pyIsSpace ++
          ((x.dropWhile pyIsSpace).reverse.takeWhile pyIsSpace ++
            (x.dropWhile pyIsSpace).reverse.dropWhile pyIsSpace).reverse := by
        rw [h]
    _ = x.takeWhile pyIsSpace ++ (pystrip x ++
          ((x.dropWhile pyIsSpace).reverse.takeWhile pyIsSpace).reverse) := by
        rw [List.reverse_append]; rfl
    _ = x.takeWhile pyIsSpace ++ pystrip x ++
          ((x.dropWhile pyIsSpace).reverse.takeWhile pyIsSpace).reverse := by
        rw [List.append_assoc]

lemma collapsed_infix {s A m B : List Char}
    (hs : s = A ++ m ++ B)
    (hws : ∀ c ∈ s, pyIsSpace c = true → c = ' ') (hn2 : noWS2 s = true) :
    '\n' ∉ pystrip m ∧ noWS2 (pystrip m) = true ∧
      pystrip (pystrip m) = pystrip m ∧
      ∀ c ∈ pystrip m, pyIsSpace c = true → c = ' ' := by
  have hm_mem : ∀ c ∈ m, c ∈ s := by
    intro c hc; rw [hs]; simp [hc]
  obtain ⟨u, v, huv, _, _⟩ := pystrip_infix m
  have hpm_mem : ∀ c ∈ pystrip m, c ∈ m := by
    intro c hc; rw [huv]; simp [hc]
  have hws' : ∀ c ∈ pystrip m, pyIsSpace c = true → c = ' ' :=
    fun c hc => hws c (hm_mem c (hpm_mem c hc))
  have hn2m : noWS2 m = true := by
    have h1 : noWS2 (A ++ m ++ B) = true := hs ▸ hn2
    exact noWS2_append_right A m (noWS2_append_left (A ++ m) B h1)
  have hn2pm : noWS2 (pystrip m) = true := by
    rw [huv] at hn2m
    exact noWS2_append_right u _ (noWS2_append_left (u ++ pystrip m) v hn2m)
  refine ⟨?_, hn2pm, pystrip_idem m, hws'⟩
  intro hmem
  have := hws' '\n' hmem (by decide)
  exact absurd this (by decide)

/-- C6: every field of a successful extraction is fully collapsed: it
contains no newline, no two consecutive whitespace characters, it carries no
leading or trailing whitespace (stripping it again changes nothing), and
every whitespace character left in it is a single plain space. -/
theorem valid_fields_collapsed (content : String) (i n r : String)
    (h : validate_and_extract_llm_content content = some (i, n, r)) :
    ∀ f ∈ ([i, n, r] : List String),
      '\n' ∉ f.data ∧ noWS2 f.data = true ∧ pystrip f.data = f.data ∧
        ∀ c ∈ f.data, pyIsSpace c = true → c = ' ' := by
  obtain ⟨i0, n0, r0, hs, hi, hn, hr, _, _, _⟩ := validate_some_unfold h
  obtain ⟨p, hp, _⟩ := searchTriple_sound hs
  obtain ⟨l1, sp1, sp2, l2, sp3, sp4, l3, sp5, he, _, _, _, _, _, _, _, _, _, _, _⟩ :=
    matchAt_sound hp
  have hc0 : cleanL content.data =
      List.take p (cleanL content.data) ++
        (l1 ++ sp1 ++ i0 ++ sp2 ++ l2 ++ sp3 ++ n0 ++ sp4 ++ l3 ++ sp5 ++ r0) := by
    conv_lhs => rw [← List.take_append_drop p (cleanL content.data)]
    rw [he]
  obtain ⟨x1, hc⟩ : ∃ x1, cleanL content.data =
      x1 ++ (l1 ++ sp1 ++ i0 ++ sp2 ++ l2 ++ sp3 ++ n0 ++ sp4 ++ l3 ++ sp5 ++ r0) :=
    ⟨_, hc0⟩
  have hws := cleanL_wsIsSpace content.data
  have hn2 := cleanL_noWS2 content.data
  have hci : cleanL content.data =
      (x1 ++ l1 ++ sp1) ++ i0 ++
        (sp2 ++ l2 ++ sp3 ++ n0 ++ sp4 ++ l3 ++ sp5 ++ r0) := by
    rw [hc]; simp [List.append_assoc]
  have hcn : cleanL content.data =
      (x1 ++ l1 ++ sp1 ++ i0 ++ sp2 ++ l2 ++ sp3)
        ++ n0 ++ (sp4 ++ l3 ++ sp5 ++ r0) := by
    rw [hc]; simp [List.append_assoc]
  have hcr : cleanL content.data =
      (x1 ++ l1 ++ sp1 ++ i0 ++ sp2 ++ l2 ++ sp3
        ++ n0 ++ sp4 ++ l3 ++ sp5) ++ r0 ++ ([] : List Char) := by
    rw [hc]; simp [List.append_assoc]
  intro f hf
  rcases List.mem_cons.mp hf with rfl | hf
  · rw [← hi]; exact collapsed_infix hci hws hn2
  rcases List.mem_cons.mp hf with rfl | hf
  · rw [← hn]; exact collapsed_infix hcn hws hn2
  rcases List.mem_cons.mp hf with rfl | hf
  · rw [← hr]; exact collapsed_infix hcr hws hn2
  · simp at hf

theorem valid_fields_collapsed_witness :
    validate_and_extract_llm_content "Intent: a \n b Node: c Reason: d" =
        some ("a b", "c", "d") ∧
      ∀ f ∈ (["a b", "c", "d"] : List String),
        '\n' ∉ f.data ∧ noWS2 f.data = true ∧ pystrip f.data = f.data ∧
          ∀ c ∈ f.data, pyIsSpace c = true → c = ' ' :=
  ⟨by decide,
    valid_fields_collapsed "Intent: a \n b Node: c Reason: d" "a b" "c" "d"
      (by decide)⟩

lemma char_toNat_ofNat_valid {n : Nat} (h1 : 97 ≤ n) (h2 : n ≤ 122) :
    (Char.ofNat n).toNat = n := by
  have hv : n.isValidChar := Or.inl (by omega)
  simp only [Char.ofNat, dif_pos hv, Char.ofNatAux, Char.toNat, UInt32.toNat]
  simp [BitVec.toNat_ofNatLt]

lemma pyIsSpace_false_of_toNat {c : Char} (h1 : 64 < c.toNat)
    (_ : c.toNat ≤ 122) : pyIsSpace c = false := by
  simp only [pyIsSpace, Bool.or_eq_false_iff, beq_eq_false_iff_ne]
  refine ⟨⟨⟨⟨⟨?_, ?_⟩, ?_⟩, ?_⟩, ?_⟩, ?_⟩ <;>
    (intro he; rw [he] at h1; exact absurd h1 (by decide))

lemma pyIsSpace_toLower (c : Char) : pyIsSpace c.toLower = pyIsSpace c := by
  have hdef : c.toLower =
      if c.toNat ≥ 65 ∧ c.toNat ≤ 90 then Char.ofNat (c.toNat + 32) else c := rfl
  rw [hdef]
  by_cases h : c.toNat ≥ 65 ∧ c.toNat ≤ 90
  · rw [if_pos h]
    have ht : (Char.ofNat (c.toNat + 32)).toNat = c.toNat + 32 :=
      char_toNat_ofNat_valid (by omega) (by omega)
    rw [pyIsSpace_false_of_toNat (by omega) (by omega),
      pyIsSpace_false_of_toNat (c := c) (by omega) (by omega)]
  · rw [if_neg h]

lemma ciStr_length {l lit : List Char} (h : ciStr l lit) :
    l.length = lit.length := by
  have := congrArg List.length h
  simpa using this

lemma ciStr_ne_nil {l lit : List Char} (h : ciStr l lit) (hne : lit ≠ []) :
    l ≠ [] := by
  intro hl
  apply hne
  have := ciStr_length h
  rw [hl] at this
  exact List.length_eq_zero.mp this.symm

lemma ciStr_nonws {l lit : List Char} (h : ciStr l lit)
    (hn : ∀ c ∈ lit, pyIsSpace c = false) : ∀ c ∈ l, pyIsSpace c = false := by
  induction l generalizing lit with
  | nil => intro c hc; simp at hc
  | cons a l' ih =>
    cases lit with
    | nil => simp [ciStr] at h
    | cons d lit' =>
      simp only [ciStr, List.map_cons, List.cons.injEq] at h
      obtain ⟨h1, h2⟩ := h
      intro c hc
      rcases List.mem_cons.mp hc with rfl | hc'
      · have : pyIsSpace c.toLower = pyIsSpace d.toLower := by rw [h1]
        rw [pyIsSpace_toLower, pyIsSpace_toLower] at this
        rw [this]
        exact hn d (List.mem_cons_self _ _)
      · exact ih h2 (fun e he => hn e (List.mem_cons_of_mem _ he)) c hc'

theorem squeeze_decomp : ∀ (t w a b : List Char), w ≠ [] → (∀ c ∈ w, c ≠ ' ') →
    squeeze t = a ++ w ++ b →
    ∃ a' b', t = a' ++ w ++ b' ∧ squeeze b' = b ∧ (a = [] → a' = [])
  | [], w, a, b, hw, _, h => by
    simp only [squeeze] at h
    have := h.symm
    simp only [List.append_eq_nil] at this
    exact absurd this.1.2 hw
  | [c], w, a, b, hw, _, h => by
    simp only [squeeze] at h
    have hlen := congrArg List.length h
    simp only [List.length_append, List.length_singleton] at hlen
    have hwlen : 1 ≤ w.length := List.length_pos.mpr hw
    have ha : a = [] := List.length_eq_zero.mp (by omega)
    have hb : b = [] := List.length_eq_zero.mp (by omega)
    subst ha; subst hb
    exact ⟨[], [], h, rfl, fun _ => rfl⟩
  | c1 :: c2 :: t2, w, a, b, hw, hnw, h => by
    by_cases hd : c1 = ' ' ∧ c2 = ' '
    · simp only [squeeze, if_pos hd] at h
      obtain ⟨a', b', h1, h2, h3⟩ := squeeze_decomp (c2 :: t2) w a b hw hnw h
      refine ⟨c1 :: a', b', by simp [h1, List.append_assoc], h2, ?_⟩
      intro ha
      exfalso
      have ha' := h3 ha
      subst ha'
      cases w with
      | nil => exact hw rfl
      | cons wh wt =>
        rw [List.nil_append, List.cons_append] at h1
        injection h1 with h4 _
        exact hnw wh (List.mem_cons_self _ _) (by rw [← h4, hd.2])
    · simp only [squeeze, if_neg hd] at h
      cases a with
      | nil =>
        cases w with
        | nil => exact absurd rfl hw
        | cons wh wt =>
          simp only [List.nil_append, List.cons_append] at h
          injection h with h4 h5
          by_cases hwt : wt = []
          · subst hwt
            refine ⟨[], c2 :: t2, ?_, ?_, fun _ => rfl⟩
            · rw [h4]; simp
            · simpa using h5
          · obtain ⟨a', b', h1, h2, h3⟩ := squeeze_decomp (c2 :: t2) wt [] b hwt
              (fun c hc => hnw c (List.mem_cons_of_mem _ hc)) (by simpa using h5)
            have ha' := h3 rfl
            subst ha'
            rw [List.nil_append] at h1
            refine ⟨[], b', ?_, h2, fun _ => rfl⟩
            rw [List.nil_append, List.cons_append, h4, h1]
      | cons ah at' =>
        simp only [List.cons_append] at h
        injection h with h4 h5
        obtain ⟨a', b', h1, h2, _⟩ := squeeze_decomp (c2 :: t2) w at' b hw hnw h5
        refine ⟨c1 :: a', b', by simp [h1, List.append_assoc], h2, ?_⟩
        intro hx
        exact absurd hx (by simp)

theorem map_eq_of_nonws : ∀ (u w : List Char), u.map toSpace1 = w →
    (∀ c ∈ w, pyIsSpace c = false) → u = w
  | [], w, h, _ => by simpa using h
  | c :: u', w, h, hnw => by
    cases w with
    | nil => simp at h
    | cons wh wt =>
      simp only [List.map_cons, List.cons.injEq] at h
      obtain ⟨h1, h2⟩ := h
      have hc : c = wh := by
        unfold toSpace1 at h1
        by_cases hcs : pyIsSpace c = true
        · rw [if_pos hcs] at h1
          exfalso
          have hws := hnw wh (List.mem_cons_self _ _)
          rw [← h1] at hws
          exact absurd hws (by decide)
        · rwa [if_neg hcs] at h1
      rw [hc, map_eq_of_nonws u' wt h2
        (fun e he => hnw e (List.mem_cons_of_mem _ he))]

lemma map_toSpace1_decomp {t a w b : List Char}
    (h : t.map toSpace1 = a ++ w ++ b)
    (hnw : ∀ c ∈ w, pyIsSpace c = false) :
    ∃ a' b', t = a' ++ w ++ b' ∧ b'.map toSpace1 = b := by
  have h' : t.map toSpace1 = a ++ (w ++ b) := by rw [h, List.append_assoc]
  have hmid : ((t.drop a.length).take w.length).map toSpace1 = w := by
    rw [List.map_take, List.map_drop, h', List.drop_left, List.take_left]
  have hmid' : (t.drop a.length).take w.length = w :=
    map_eq_of_nonws _ _ hmid hnw
  refine ⟨t.take a.length, (t.drop a.length).drop w.length, ?_, ?_⟩
  · calc t = t.take a.length ++ t.drop a.length :=
          (List.take_append_drop _ _).symm
      _ = t.take a.length ++ ((t.drop a.length).take w.length ++
            (t.drop a.length).drop w.length) := by
          conv_rhs => rw [List.take_append_drop]
      _ = t.take a.length ++ w ++ (t.drop a.length).drop w.length := by
          rw [hmid', List.append_assoc]
  · rw [List.map_drop, List.map_drop, h', List.drop_left, List.drop_left]

lemma cleanL_decomp3 {s x1 l1 x2 l2 x3 l3 x4 : List Char}
    (h : cleanL s = x1 ++ l1 ++ x2 ++ l2 ++ x3 ++ l3 ++ x4)
    (hne1 : l1 ≠ []) (hne2 : l2 ≠ []) (hne3 : l3 ≠ [])
    (hn1 : ∀ c ∈ l1, pyIsSpace c = false) (hn2 : ∀ c ∈ l2, pyIsSpace c = false)
    (hn3 : ∀ c ∈ l3, pyIsSpace c = false) :
    ∃ y1 y2 y3 y4, s = y1 ++ l1 ++ y2 ++ l2 ++ y3 ++ l3 ++ y4 := by
  have hsp : ∀ (w : List Char), (∀ c ∈ w, pyIsSpace c = false) →
      ∀ c ∈ w, c ≠ ' ' := by
    intro w hws c hc he
    have := hws c hc
    rw [he] at this
    exact absurd this (by decide)
  have h1 : squeeze ((pystrip s).map toSpace1) =
      x1 ++ l1 ++ (x2 ++ l2 ++ (x3 ++ l3 ++ x4)) := by
    rw [← cleanL, h]; simp [List.append_assoc]
  obtain ⟨a1, b1, hb1, hsq1, _⟩ :=
    squeeze_decomp _ l1 x1 _ hne1 (hsp l1 hn1) h1
  obtain ⟨a2, b2, hb2, hsq2, _⟩ :=
    squeeze_decomp _ l2 x2 _ hne2 (hsp l2 hn2) hsq1
  obtain ⟨a3, b3, hb3, _, _⟩ :=
    squeeze_decomp _ l3 x3 _ hne3 (hsp l3 hn3) hsq2
  rw [hb3] at hb2
  rw [hb2] at hb1
  -- hb1 : (pystrip s).map toSpace1 = a1 ++ l1 ++ (a2 ++ l2 ++ (a3 ++ l3 ++ b3))
  have hm1 : (pystrip s).map toSpace1 =
      a1 ++ l1 ++ (a2 ++ l2 ++ (a3 ++ l3 ++ b3)) := by
    rw [hb1]
  obtain ⟨a1', b1', hp1, hmap1⟩ := map_toSpace1_decomp hm1 hn1
  obtain ⟨a2', b2', hp2, hmap2⟩ := map_toSpace1_decomp hmap1 hn2
  obtain ⟨a3', b3', hp3, _⟩ := map_toSpace1_decomp hmap2 hn3
  rw [hp3] at hp2
  rw [hp2] at hp1
  obtain ⟨u, v, huv, _, _⟩ := pystrip_infix s
  rw [hp1] at huv
  refine ⟨u ++ a1', a2', a3', b3' ++ v, ?_⟩
  rw [huv]; simp [List.append_assoc]

lemma hasLitCI_of_isSome {lit s : List Char}
    (h : (matchLitCI lit s).isSome = true) : hasLitCI lit s = true := by
  cases s with
  | nil => simpa [hasLitCI] using h
  | cons c t => simp [hasLitCI, h]

lemma hasLitCI_append {lit : List Char} : ∀ (a t : List Char),
    hasLitCI lit t = true → hasLitCI lit (a ++ t) = true
  | [], _, h => h
  | c :: a', t, h => by
    simp only [List.cons_append, hasLitCI, Bool.or_eq_true]
    exact Or.inr (hasLitCI_append a' t h)

lemma occursCI_hasLitCI {lit s : List Char} (h : OccursCI lit s) :
    hasLitCI lit s = true := by
  obtain ⟨a, l, b, rfl, hci⟩ := h
  rw [List.append_assoc]
  apply hasLitCI_append
  apply hasLitCI_of_isSome
  rw [matchLitCI_complete hci b]
  rfl

lemma hasNR_append : ∀ (a t : List Char), hasNR t = true → hasNR (a ++ t) = true
  | [], _, h => h
  | c :: a', t, h => by
    simp only [List.cons_append, hasNR, Bool.or_eq_true]
    exact Or.inr (hasNR_append a' t h)

lemma hasSeq3_append : ∀ (a t : List Char),
    hasSeq3 t = true → hasSeq3 (a ++ t) = true
  | [], _, h => h
  | c :: a', t, h => by
    simp only [List.cons_append, hasSeq3, Bool.or_eq_true]
    exact Or.inr (hasSeq3_append a' t h)

lemma hasNR_of_parts {x2 l2 x3 l3 x4 : List Char}
    (h2 : ciStr l2 nodeLit) (h3 : ciStr l3 reasonLit) :
    hasNR (x2 ++ l2 ++ x3 ++ l3 ++ x4) = true := by
  have hassoc : x2 ++ l2 ++ x3 ++ l3 ++ x4 =
      x2 ++ (l2 ++ (x3 ++ l3 ++ x4)) := by simp [List.append_assoc]
  rw [hassoc]
  apply hasNR_append
  have hl2 : l2 ≠ [] := ciStr_ne_nil h2 (by decide)
  cases l2 with
  | nil => exact absurd rfl hl2
  | cons c l2' =>
    simp only [List.cons_append, hasNR, Bool.or_eq_true, List.append_eq]
    left
    rw [← List.cons_append, matchLitCI_complete h2]
    exact occursCI_hasLitCI ⟨x3, l3, x4, rfl, h3⟩

lemma orderedLabels_hasSeq3 {s : List Char} (h : OrderedLabels s) :
    hasSeq3 s = true := by
  obtain ⟨x1, l1, x2, l2, x3, l3, x4, rfl, h1, h2, h3⟩ := h
  have hassoc : x1 ++ l1 ++ x2 ++ l2 ++ x3 ++ l3 ++ x4 =
      x1 ++ (l1 ++ (x2 ++ l2 ++ x3 ++ l3 ++ x4)) := by simp [List.append_assoc]
  rw [hassoc]
  apply hasSeq3_append
  have hl1 : l1 ≠ [] := ciStr_ne_nil h1 (by decide)
  cases l1 with
  | nil => exact absurd rfl hl1
  | cons c l1' =>
    simp only [List.cons_append, hasSeq3, Bool.or_eq_true, List.append_eq]
    left
    rw [← List.cons_append, matchLitCI_complete h1]
    exact hasNR_of_parts h2 h3

lemma validate_some_ordered {content : String}
    {t : String × String × String}
    (hv : validate_and_extract_llm_content content = some t) :
    ∃ y1 l1 y2 l2 y3 l3 y4,
      content.data = y1 ++ l1 ++ y2 ++ l2 ++ y3 ++ l3 ++ y4 ∧
        ciStr l1 intentLit ∧ ciStr l2 nodeLit ∧ ciStr l3 reasonLit := by
  obtain ⟨i, n, r⟩ := t
  obtain ⟨i0, n0, r0, hs, _, _, _, _, _, _⟩ := validate_some_unfold hv
  obtain ⟨p, hp, _⟩ := searchTriple_sound hs
  obtain ⟨l1, sp1, sp2, l2, sp3, sp4, l3, sp5, he, hci1, hci2, hci3, _, _, _,
    _, _, _, _, _⟩ := matchAt_sound hp
  have hc : cleanL content.data =
      List.take p (cleanL content.data) ++ l1 ++ (sp1 ++ i0 ++ sp2) ++ l2 ++
        (sp3 ++ n0 ++ sp4) ++ l3 ++ (sp5 ++ r0) := by
    conv_lhs => rw [← List.take_append_drop p (cleanL content.data)]
    rw [he]
    simp [List.append_assoc]
  obtain ⟨y1, y2, y3, y4, hy⟩ := cleanL_decomp3 hc
    (ciStr_ne_nil hci1 (by decide)) (ciStr_ne_nil hci2 (by decide))
    (ciStr_ne_nil hci3 (by decide))
    (ciStr_nonws hci1 (by decide)) (ciStr_nonws hci2 (by decide))
    (ciStr_nonws hci3 (by decide))
  exact ⟨y1, l1, y2, l2, y3, l3, y4, hy, hci1, hci2, hci3⟩

/-- C3: when the three labels (each one the label word immediately followed
by a colon, compared case-insensitively) do not all occur in the fixed
Intent -> Node -> Reason order anywhere in the input, extraction returns the
failure value (validity false, all fields null). -/
theorem missing_or_reordered_invalid (content : String)
    (h : ¬ OrderedLabels content.data) :
    validate_and_extract_llm_content content = none := by
  cases hv : validate_and_extract_llm_content content with
  | none => rfl
  | some t =>
    exfalso
    apply h
    obtain ⟨y1, l1, y2, l2, y3, l3, y4, hy, hci1, hci2, hci3⟩ :=
      validate_some_ordered hv
    exact ⟨y1, l1, y2, l2, y3, l3, y4, hy, hci1, hci2, hci3⟩

theorem missing_or_reordered_invalid_witness :
    ¬ OrderedLabels ("Node: b Intent: a Reason: c" : String).data ∧
      validate_and_extract_llm_content "Node: b Intent: a Reason: c" = none :=
  ⟨fun h => absurd (orderedLabels_hasSeq3 h) (by decide),
    missing_or_reordered_invalid "Node: b Intent: a Reason: c"
      (fun h => absurd (orderedLabels_hasSeq3 h) (by decide))⟩

/-- C9: a label word only counts when its colon follows immediately: if the
exact token `Intent:` (respectively `Node:`, `Reason:`) never occurs
case-insensitively in the input - for instance because whitespace separates
the word from its colon - extraction returns the failure value. -/
theorem label_requires_colon (content : String) (lit : List Char)
    (hlit : lit = intentLit ∨ lit = nodeLit ∨ lit = reasonLit)
    (h : hasLitCI lit content.data = false) :
    validate_and_extract_llm_content content = none := by
  cases hv : validate_and_extract_llm_content content with
  | none => rfl
  | some t =>
    exfalso
    obtain ⟨y1, l1, y2, l2, y3, l3, y4, hy, hci1, hci2, hci3⟩ :=
      validate_some_ordered hv
    have hocc : OccursCI lit content.data := by
      rcases hlit with rfl | rfl | rfl
      · refine ⟨y1, l1, y2 ++ l2 ++ y3 ++ l3 ++ y4, ?_, hci1⟩
        rw [hy]; simp [List.append_assoc]
      · refine ⟨y1 ++ l1 ++ y2, l2, y3 ++ l3 ++ y4, ?_, hci2⟩
        rw [hy]; simp [List.append_assoc]
      · refine ⟨y1 ++ l1 ++ y2 ++ l2 ++ y3, l3, y4, ?_, hci3⟩
        rw [hy]
    rw [occursCI_hasLitCI hocc] at h
    cases h

theorem label_requires_colon_witness :
    hasLitCI intentLit ("Intent : x Node: y Reason: z" : String).data = false ∧
      validate_and_extract_llm_content "Intent : x Node: y Reason: z" = none :=
  ⟨by decide,
    label_requires_colon "Intent : x Node: y Reason: z" intentLit
      (Or.inl rfl) (by decide)⟩

lemma length_dropWhile_le (p : Char → Bool) :
    ∀ l : List Char, (l.dropWhile p).length ≤ l.length := by
  intro l
  induction l with
  | nil => simp
  | cons c t ih =>
    rw [List.dropWhile_cons]
    by_cases h : p c
    · rw [if_pos h]; simp only [List.length_cons]; omega
    · rw [if_neg h]

theorem squeeze_last : ∀ (t : List Char) (d : Char),
    ∃ u, squeeze (t ++ [d]) = u ++ [d]
  | [], d => ⟨[], rfl⟩
  | [a], d => by
    by_cases h : a = ' ' ∧ d = ' '
    · exact ⟨[], by simp [squeeze, h]⟩
    · exact ⟨[a], by simp [squeeze, h]⟩
  | a :: b :: t, d => by
    by_cases h : a = ' ' ∧ b = ' '
    · obtain ⟨u, hu⟩ := squeeze_last (b :: t) d
      exact ⟨u, by simp only [List.cons_append, squeeze, if_pos h]; exact hu⟩
    · obtain ⟨u, hu⟩ := squeeze_last (b :: t) d
      refine ⟨a :: u, ?_⟩
      simp only [List.cons_append, squeeze, if_neg h, List.append_eq]
      have hbt := hu
      simp only [List.cons_append] at hbt
      rw [hbt]

lemma toSpace1_nonws {c : Char} (h : pyIsSpace c = false) : toSpace1 c = c := by
  unfold toSpace1
  rw [if_neg (by simp [h])]

lemma pystrip_head_false {x : List Char} {c : Char} {t : List Char}
    (h : pystrip x = c :: t) : pyIsSpace c = false := by
  obtain ⟨z, hz⟩ := stripR_prefix (x.dropWhile pyIsSpace)
  have hx : x.dropWhile pyIsSpace = c :: (t ++ z) := by
    rw [hz]
    have : ((x.dropWhile pyIsSpace).reverse.dropWhile pyIsSpace).reverse =
        pystrip x := rfl
    rw [this, h]
    rfl
  exact dropWhile_head_false pyIsSpace _ c (t ++ z) hx

lemma pystrip_last_false {x u : List Char} {d : Char}
    (h : pystrip x = u ++ [d]) : pyIsSpace d = false := by
  have hrev : (x.dropWhile pyIsSpace).reverse.dropWhile pyIsSpace =
      d :: u.reverse := by
    have h1 : (pystrip x).reverse = d :: u.reverse := by
      rw [h, List.reverse_append]
      rfl
    have h2 : (pystrip x).reverse =
        (x.dropWhile pyIsSpace).reverse.dropWhile pyIsSpace := by
      unfold pystrip
      rw [List.reverse_reverse]
    rw [← h2, h1]
  exact dropWhile_head_false pyIsSpace _ d u.reverse hrev

lemma pystrip_eq_self {x : List Char}
    (hhead : ∀ c t, x = c :: t → pyIsSpace c = false)
    (hlast : ∀ u d, x = u ++ [d] → pyIsSpace d = false) : pystrip x = x := by
  have h1 : x.dropWhile pyIsSpace = x := by
    cases hx : x with
    | nil => rfl
    | cons c t => rw [List.dropWhile_cons, if_neg (by simp [hhead c t hx])]
  have h2 : x.reverse.dropWhile pyIsSpace = x.reverse := by
    cases hx : x.reverse with
    | nil => rfl
    | cons c t =>
      have hxe : x = t.reverse ++ [c] := by
        have := congrArg List.reverse hx
        simpa using this
      rw [List.dropWhile_cons, if_neg (by simp [hlast t.reverse c hxe])]
  unfold pystrip
  rw [h1, h2, List.reverse_reverse]

lemma cleanL_strip_fix (s : List Char) : pystrip (cleanL s) = cleanL s := by
  apply pystrip_eq_self
  · intro c t hct
    cases hP : pystrip s with
    | nil =>
      exfalso
      have : cleanL s = [] := by unfold cleanL; rw [hP]; rfl
      rw [this] at hct
      cases hct
    | cons p0 P' =>
      have hp0 : pyIsSpace p0 = false := pystrip_head_false hP
      have hM : (pystrip s).map toSpace1 = p0 :: P'.map toSpace1 := by
        rw [hP, List.map_cons, toSpace1_nonws hp0]
      obtain ⟨t', ht'⟩ := squeeze_cons_head p0 (P'.map toSpace1)
      have hcl : cleanL s = p0 :: t' := by
        unfold cleanL
        rw [hM, ht']
      rw [hcl] at hct
      injection hct with h4 _
      rw [← h4]
      exact hp0
  · intro u d hud
    rcases List.eq_nil_or_concat (pystrip s) with hP | ⟨P', p1, hP⟩
    · exfalso
      have : cleanL s = [] := by unfold cleanL; rw [hP]; rfl
      rw [this] at hud
      have := congrArg List.length hud
      simp at this
    · rw [List.concat_eq_append] at hP
      have hp1 : pyIsSpace p1 = false := pystrip_last_false hP
      have hM : (pystrip s).map toSpace1 = P'.map toSpace1 ++ [p1] := by
        rw [hP, List.map_append, List.map_singleton, toSpace1_nonws hp1]
      obtain ⟨u', hu'⟩ := squeeze_last (P'.map toSpace1) p1
      have hcl : cleanL s = u' ++ [p1] := by
        unfold cleanL
        rw [hM, hu']
      rw [hcl] at hud
      have h4 : d = p1 := by
        have h6 := congrArg List.reverse hud
        simp only [List.reverse_append, List.reverse_cons, List.reverse_nil,
          List.nil_append, List.singleton_append, List.cons.injEq] at h6
        exact h6.1.symm
      rw [h4]
      exact hp1

lemma strip_fix_no_ws_suffix {x A v : List Char} (hfix : pystrip x = x)
    (hx : x = A ++ v) (hv : AllSpace v) : v = [] := by
  by_contra hvne
  obtain ⟨c, w, hvr⟩ : ∃ c w, v.reverse = c :: w := by
    cases hvrc : v.reverse with
    | nil =>
      exact absurd (by simpa using congrArg List.reverse hvrc) hvne
    | cons c w => exact ⟨c, w, rfl⟩
  have hcws : pyIsSpace c = true := by
    apply hv c
    have : c ∈ v.reverse := by rw [hvr]; exact List.mem_cons_self _ _
    exact List.mem_reverse.mp this
  have hlen1 : (x.dropWhile pyIsSpace).length = x.length := by
    have h1 : (pystrip x).length = x.length := by rw [hfix]
    have h2 : (pystrip x).length ≤ (x.dropWhile pyIsSpace).length := by
      unfold pystrip
      rw [List.length_reverse]
      calc ((x.dropWhile pyIsSpace).reverse.dropWhile pyIsSpace).length
          ≤ (x.dropWhile pyIsSpace).reverse.length := length_dropWhile_le _ _
        _ = (x.dropWhile pyIsSpace).length := List.length_reverse _
    have h3 : (x.dropWhile pyIsSpace).length ≤ x.length :=
      length_dropWhile_le _ _
    omega
  have hdw : x.dropWhile pyIsSpace = x := by
    have h4 := List.takeWhile_append_dropWhile (p := pyIsSpace) (l := x)
    have h5 := congrArg List.length h4
    rw [List.length_append] at h5
    have h7 : x.takeWhile pyIsSpace = [] :=
      List.length_eq_zero.mp (by omega)
    rw [h7] at h4
    simpa using h4
  have hps : pystrip x = (x.reverse.dropWhile pyIsSpace).reverse := by
    unfold pystrip; rw [hdw]
  have h9 : (x.reverse.dropWhile pyIsSpace).reverse = x := by rw [← hps, hfix]
  have h8 : x.reverse.dropWhile pyIsSpace = x.reverse := by
    have := congrArg List.reverse h9
    simpa using this
  have hxr : x.reverse = c :: (w ++ A.reverse) := by
    rw [hx, List.reverse_append, hvr]
    rfl
  rw [hxr, List.dropWhile_cons, if_pos hcws] at h8
  have h10 := congrArg List.length h8
  have hle := length_dropWhile_le pyIsSpace (w ++ A.reverse)
  simp only [List.length_cons] at h10
  omega

lemma intent_no_overlap {s : List Char} {q p : Nat}
    (hq : (matchLitCI intentLit (s.drop q)).isSome = true)
    (hp : (matchLitCI intentLit (s.drop p)).isSome = true)
    (hlt : q < p) : q + 7 ≤ p := by
  by_contra hcon
  push_neg at hcon
  obtain ⟨d, hd1, hd6, hpd⟩ : ∃ d, 1 ≤ d ∧ d ≤ 6 ∧ p = q + d :=
    ⟨p - q, by omega, by omega, by omega⟩
  obtain ⟨rq, hrq⟩ := Option.isSome_iff_exists.mp hq
  obtain ⟨l1', hsplitq, hciq⟩ := matchLitCI_sound hrq
  have hciq' : l1'.map Char.toLower = intentLit.map Char.toLower := hciq
  have hlen1' : l1'.length = 7 := by
    have := ciStr_length hciq
    rw [this]
    rfl
  obtain ⟨rp, hrp⟩ := Option.isSome_iff_exists.mp hp
  obtain ⟨l1'', hsplitp, hcip⟩ := matchLitCI_sound hrp
  have hcip' : l1''.map Char.toLower = intentLit.map Char.toLower := hcip
  have hlen1'' : l1''.length = 7 := by
    have := ciStr_length hcip
    rw [this]
    rfl
  have hdp : s.drop p = l1'.drop d ++ rq := by
    have h1 : s.drop p = (s.drop q).drop d := by
      rw [List.drop_drop]
      congr 1
    rw [h1, hsplitq, List.drop_append_eq_append_drop]
    have h2 : d - l1'.length = 0 := by omega
    rw [h2, List.drop_zero]
  have hh1 : (s.drop p).head? = l1''.head? := by
    rw [hsplitp]
    cases l1'' with
    | nil => simp at hlen1''
    | cons a t => rfl
  have hh2 : (s.drop p).head? = l1'[d]? := by
    rw [hdp]
    rw [← List.head?_drop]
    cases hld : l1'.drop d with
    | nil =>
      exfalso
      have := congrArg List.length hld
      rw [List.length_drop] at this
      simp at this
      omega
    | cons a t => rfl
  have key : (intentLit.map Char.toLower)[d]? = some 'i' := by
    calc (intentLit.map Char.toLower)[d]? = (l1'.map Char.toLower)[d]? := by
          rw [hciq']
      _ = Option.map Char.toLower l1'[d]? := List.getElem?_map _ _ _
      _ = Option.map Char.toLower (s.drop p).head? := by rw [hh2]
      _ = Option.map Char.toLower l1''.head? := by rw [hh1]
      _ = (l1''.map Char.toLower).head? := (List.head?_map _ _).symm
      _ = (intentLit.map Char.toLower).head? := by rw [hcip']
      _ = some 'i' := by decide
  have hno : ∀ e, 1 ≤ e → e ≤ 6 →
      ¬ ((intentLit.map Char.toLower)[e]? = some 'i') := by decide
  exact hno d hd1 hd6 key

/-- C7: for every successful extraction, the cleaned input decomposes as
arbitrary leading content, the `Intent:` label, the middle fields and
labels, and then the reason value extending exactly to the end of the
string (greedy capture to end-of-input), and no case-insensitive `Intent:`
occurrence starts inside the leading content - the match consumes the first
recognized `Intent:`, and everything before it is discarded without making
extraction fail. -/
theorem prefix_discarded_reason_greedy (content : String) (i n r : String)
    (h : validate_and_extract_llm_content content = some (i, n, r)) :
    ∃ x1 l1 m1 l2 m2 l3 m3,
      cleanL content.data = x1 ++ l1 ++ m1 ++ l2 ++ m2 ++ l3 ++ m3 ++ r.data ∧
        ciStr l1 intentLit ∧ ciStr l2 nodeLit ∧ ciStr l3 reasonLit ∧
        ∀ q < x1.length, litAt intentLit (cleanL content.data) q = false := by
  obtain ⟨i0, n0, r0, hs, hi, hn, hr, hine, hnne, hrne⟩ := validate_some_unfold h
  obtain ⟨p, hp, hmin⟩ := searchTriple_sound hs
  obtain ⟨l1, sp1, sp2, l2, sp3, sp4, l3, sp5, he, hci1, hci2, hci3,
    hsp1, hsp2, hsp3, hsp4, hsp5, hi0, hn0, hr0⟩ := matchAt_sound hp
  obtain ⟨u, v, huv, hu, hv⟩ := pystrip_infix r0
  rw [hr] at huv
  have hc0 : cleanL content.data =
      List.take p (cleanL content.data) ++ l1 ++ sp1 ++ i0 ++ sp2 ++ l2 ++ sp3
        ++ n0 ++ sp4 ++ l3 ++ sp5 ++ r0 := by
    conv_lhs => rw [← List.take_append_drop p (cleanL content.data)]
    rw [he]
    simp [List.append_assoc]
  obtain ⟨x1, hc, hx1len⟩ : ∃ x1, cleanL content.data =
      x1 ++ l1 ++ sp1 ++ i0 ++ sp2 ++ l2 ++ sp3 ++ n0 ++ sp4 ++ l3 ++ sp5 ++ r0
        ∧ x1.length ≤ p :=
    ⟨List.take p (cleanL content.data), hc0, by rw [List.length_take]; omega⟩
  have hveq : v = [] := by
    refine strip_fix_no_ws_suffix (cleanL_strip_fix content.data)
      (A := x1 ++ l1 ++ sp1 ++ i0 ++ sp2 ++ l2
        ++ sp3 ++ n0 ++ sp4 ++ l3 ++ sp5 ++ u ++ r.data) ?_ hv
    rw [hc, huv]
    simp [List.append_assoc]
  subst hveq
  rw [List.append_nil] at huv
  refine ⟨x1, l1, sp1 ++ i0 ++ sp2, l2,
    sp3 ++ n0 ++ sp4, l3, sp5 ++ u, ?_, hci1, hci2, hci3, ?_⟩
  · rw [hc, huv]
    simp [List.append_assoc]
  · intro q hq
    have hqp : q < p := by omega
    by_contra hlit
    have hlit' : (matchLitCI intentLit
        ((cleanL content.data).drop q)).isSome = true := by
      unfold litAt at hlit
      cases hb : (matchLitCI intentLit ((cleanL content.data).drop q)).isSome with
      | false => rw [hb] at hlit; exact absurd rfl hlit
      | true => rfl
    have hpm : (matchLitCI intentLit
        ((cleanL content.data).drop p)).isSome = true := by
      rw [he]
      have hassoc2 : l1 ++ sp1 ++ i0 ++ sp2 ++ l2 ++ sp3 ++ n0 ++ sp4 ++ l3
          ++ sp5 ++ r0 =
          l1 ++ (sp1 ++ i0 ++ sp2 ++ l2 ++ sp3 ++ n0 ++ sp4 ++ l3 ++ sp5 ++ r0) := by
        simp [List.append_assoc]
      rw [hassoc2, matchLitCI_complete hci1]
      rfl
    have hoverlap : q + 7 ≤ p := intent_no_overlap hlit' hpm hqp
    obtain ⟨rq, hrq⟩ := Option.isSome_iff_exists.mp hlit'
    obtain ⟨l1', hsplitq, hciq⟩ := matchLitCI_sound hrq
    have hlen1' : l1'.length = 7 := by
      have := ciStr_length hciq
      rw [this]
      rfl
    have hdrop : (cleanL content.data).drop p = rq.drop (p - q - 7) := by
      have h1 : (cleanL content.data).drop p =
          ((cleanL content.data).drop q).drop (p - q) := by
        rw [List.drop_drop]
        congr 1
        omega
      rw [h1, hsplitq, List.drop_append_eq_append_drop]
      have h2 : l1'.drop (p - q) = [] := List.drop_eq_nil_of_le (by omega)
      rw [h2, List.nil_append]
      congr 1
      omega
    have hrqsplit : rq = rq.take (p - q - 7) ++ (cleanL content.data).drop p := by
      rw [hdrop, List.take_append_drop]
    have hfull : (cleanL content.data).drop q =
        l1' ++ ([] : List Char) ++ (rq.take (p - q - 7) ++ l1 ++ sp1 ++ i0)
          ++ sp2 ++ l2 ++ sp3 ++ n0 ++ sp4 ++ l3 ++ sp5 ++ r0 := by
      rw [hsplitq]
      conv_lhs => rw [hrqsplit]
      rw [he]
      simp [List.append_assoc]
    have hsp0 : AllSpace ([] : List Char) := fun c hc =>
      absurd hc (List.not_mem_nil c)
    have hg1 : rq.take (p - q - 7) ++ l1 ++ sp1 ++ i0 ≠ [] := by
      intro heq
      rw [List.append_eq_nil, List.append_eq_nil, List.append_eq_nil] at heq
      exact hi0 heq.2
    have hcomp := matchAt_complete hciq hci2 hci3 hsp0 hsp2 hsp3 hsp4 hsp5
      hg1 hn0 hr0
    rw [← hfull] at hcomp
    rw [hmin q hqp] at hcomp
    simp at hcomp

theorem prefix_discarded_reason_greedy_witness :
    validate_and_extract_llm_content "junk Intent: a Node: b Reason: c tail" =
        some ("a", "b", "c tail") ∧
      ∃ x1 l1 m1 l2 m2 l3 m3,
        cleanL ("junk Intent: a Node: b Reason: c tail" : String).data =
            x1 ++ l1 ++ m1 ++ l2 ++ m2 ++ l3 ++ m3 ++
              ("c tail" : String).data ∧
          ciStr l1 intentLit ∧ ciStr l2 nodeLit ∧ ciStr l3 reasonLit ∧
          ∀ q < x1.length, litAt intentLit
            (cleanL ("junk Intent: a Node: b Reason: c tail" : String).data) q
              = false :=
  ⟨by decide,
    prefix_discarded_reason_greedy "junk Intent: a Node: b Reason: c tail"
      "a" "b" "c tail" (by decide)⟩

lemma ciStr_nil_iff {a b : List Char} (h : ciStr a b) : a = [] ↔ b = [] := by
  have hl := ciStr_length h
  constructor <;> intro hx <;> subst hx
  · exact List.length_eq_zero.mp (by simpa using hl.symm)
  · exact List.length_eq_zero.mp (by simpa using hl)

lemma ciStr_cons_iff {c c' : Char} {t t' : List Char} :
    ciStr (c :: t) (c' :: t') ↔ c.toLower = c'.toLower ∧ ciStr t t' := by
  simp [ciStr]

lemma ciStr_drop (n : Nat) {a b : List Char} (h : ciStr a b) :
    ciStr (a.drop n) (b.drop n) := by
  unfold ciStr at h ⊢
  rw [List.map_drop, List.map_drop, h]

lemma ciStr_take (n : Nat) {a b : List Char} (h : ciStr a b) :
    ciStr (a.take n) (b.take n) := by
  unfold ciStr at h ⊢
  rw [List.map_take, List.map_take, h]

lemma toLower_space_iff {c : Char} : c.toLower = ' ' ↔ c = ' ' := by
  constructor
  · intro h
    have hdef : c.toLower =
        if c.toNat ≥ 65 ∧ c.toNat ≤ 90 then Char.ofNat (c.toNat + 32) else c :=
      rfl
    rw [hdef] at h
    by_cases hu : c.toNat ≥ 65 ∧ c.toNat ≤ 90
    · rw [if_pos hu] at h
      exfalso
      have ht : (Char.ofNat (c.toNat + 32)).toNat = c.toNat + 32 :=
        char_toNat_ofNat_valid (by omega) (by omega)
      rw [h] at ht
      have : (' ' : Char).toNat = 32 := by decide
      omega
    · rwa [if_neg hu] at h
  · intro h
    rw [h]
    decide

lemma pyIsSpace_eq_of_toLower {c c' : Char} (h : c.toLower = c'.toLower) :
    pyIsSpace c = pyIsSpace c' := by
  rw [← pyIsSpace_toLower c, h, pyIsSpace_toLower]

lemma space_iff_of_toLower {c c' : Char} (h : c.toLower = c'.toLower) :
    (c = ' ') ↔ (c' = ' ') := by
  rw [← toLower_space_iff, h, toLower_space_iff]

lemma ciStr_dropWhile : ∀ {a b : List Char}, ciStr a b →
    ciStr (a.dropWhile pyIsSpace) (b.dropWhile pyIsSpace) := by
  intro a
  induction a with
  | nil =>
    intro b h
    have : b = [] := (ciStr_nil_iff h).mp rfl
    subst this
    exact h
  | cons c t ih =>
    intro b h
    cases b with
    | nil =>
      exfalso
      have := ciStr_length h
      simp at this
    | cons c' t' =>
      obtain ⟨h1, h2⟩ := ciStr_cons_iff.mp h
      rw [List.dropWhile_cons, List.dropWhile_cons]
      have hsp := pyIsSpace_eq_of_toLower h1
      by_cases hc : pyIsSpace c = true
      · rw [if_pos hc, if_pos (by rw [← hsp]; exact hc)]
        exact ih h2
      · rw [if_neg hc, if_neg (by rw [← hsp]; exact hc)]
        exact ciStr_cons_iff.mpr ⟨h1, h2⟩

lemma ciStr_reverse {a b : List Char} (h : ciStr a b) :
    ciStr a.reverse b.reverse := by
  unfold ciStr at h ⊢
  rw [List.map_reverse, List.map_reverse, h]

lemma ciStr_pystrip {a b : List Char} (h : ciStr a b) :
    ciStr (pystrip a) (pystrip b) := by
  unfold pystrip
  exact ciStr_reverse (ciStr_dropWhile (ciStr_reverse (ciStr_dropWhile h)))

lemma ciStr_map_toSpace1 : ∀ {a b : List Char}, ciStr a b →
    ciStr (a.map toSpace1) (b.map toSpace1) := by
  intro a
  induction a with
  | nil =>
    intro b h
    have : b = [] := (ciStr_nil_iff h).mp rfl
    subst this
    exact h
  | cons c t ih =>
    intro b h
    cases b with
    | nil =>
      exfalso
      have := ciStr_length h
      simp at this
    | cons c' t' =>
      obtain ⟨h1, h2⟩ := ciStr_cons_iff.mp h
      rw [List.map_cons, List.map_cons]
      refine ciStr_cons_iff.mpr ⟨?_, ih h2⟩
      unfold toSpace1
      have hsp := pyIsSpace_eq_of_toLower h1
      by_cases hc : pyIsSpace c = true
      · rw [if_pos hc, if_pos (by rw [← hsp]; exact hc)]
      · rw [if_neg hc, if_neg (by rw [← hsp]; exact hc)]
        exact h1

theorem ciStr_squeeze : ∀ (a b : List Char), ciStr a b →
    ciStr (squeeze a) (squeeze b)
  | [], b, h => by
    have : b = [] := (ciStr_nil_iff h).mp rfl
    subst this
    exact h
  | [c], b, h => by
    cases b with
    | nil => exact absurd (ciStr_length h) (by simp)
    | cons c' t' =>
      cases t' with
      | nil => exact h
      | cons d' u' => exact absurd (ciStr_length h) (by simp)
  | c1 :: c2 :: t, b, h => by
    cases b with
    | nil => exact absurd (ciStr_length h) (by simp)
    | cons c1' b' =>
      cases b' with
      | nil =>
        exfalso
        have := ciStr_length h
        simp at this
      | cons c2' t' =>
        obtain ⟨h1, hrest⟩ := ciStr_cons_iff.mp h
        obtain ⟨h2, htail⟩ := ciStr_cons_iff.mp hrest
        have e1 := space_iff_of_toLower h1
        have e2 := space_iff_of_toLower h2
        by_cases hd : c1 = ' ' ∧ c2 = ' '
        · have hd' : c1' = ' ' ∧ c2' = ' ' := ⟨e1.mp hd.1, e2.mp hd.2⟩
          simp only [squeeze, if_pos hd, if_pos hd']
          exact ciStr_squeeze (c2 :: t) (c2' :: t') hrest
        · have hd' : ¬(c1' = ' ' ∧ c2' = ' ') := fun hx =>
            hd ⟨e1.mpr hx.1, e2.mpr hx.2⟩
          simp only [squeeze, if_neg hd, if_neg hd']
          exact ciStr_cons_iff.mpr ⟨h1, ciStr_squeeze (c2 :: t) (c2' :: t') hrest⟩

lemma ciStr_sRun {a b : List Char} (h : ciStr a b) : sRun a = sRun b := by
  have e1 := congrArg List.length
    (List.takeWhile_append_dropWhile (p := pyIsSpace) (l := a))
  have e2 := congrArg List.length
    (List.takeWhile_append_dropWhile (p := pyIsSpace) (l := b))
  rw [List.length_append] at e1 e2
  have e3 := ciStr_length h
  have e4 := ciStr_length (ciStr_dropWhile h)
  unfold sRun
  omega

lemma ciStr_cleanL {a b : List Char} (h : ciStr a b) :
    ciStr (cleanL a) (cleanL b) :=
  ciStr_squeeze _ _ (ciStr_map_toSpace1 (ciStr_pystrip h))

lemma findSome?_rel {α β β' : Type} {R : β → β' → Prop} :
    ∀ (l : List α) {f : α → Option β} {g : α → Option β'},
      (∀ a ∈ l, OptRel R (f a) (g a)) →
      OptRel R (List.findSome? f l) (List.findSome? g l) := by
  intro l f g h
  induction l with
  | nil => rw [List.findSome?_nil, List.findSome?_nil]; trivial
  | cons x t ih =>
    rw [List.findSome?_cons, List.findSome?_cons]
    have hx := h x (List.mem_cons_self _ _)
    cases hfx : f x with
    | some b =>
      cases hgx : g x with
      | some b' => rw [hfx, hgx] at hx; exact hx
      | none => rw [hfx, hgx] at hx; exact False.elim hx
    | none =>
      cases hgx : g x with
      | some b' => rw [hfx, hgx] at hx; exact False.elim hx
      | none => exact ih (fun a ha => h a (List.mem_cons_of_mem _ ha))

lemma ciStr_isEmpty {a b : List Char} (h : ciStr a b) :
    a.isEmpty = b.isEmpty := by
  by_cases ha : a = []
  · rw [ha, (ciStr_nil_iff h).mp ha]
  · have hb : b ≠ [] := fun hx => ha ((ciStr_nil_iff h).mpr hx)
    cases a with
    | nil => exact absurd rfl ha
    | cons x t =>
      cases b with
      | nil => exact absurd rfl hb
      | cons y u => rfl

theorem matchLitCI_rel (lit : List Char) : ∀ {s s' : List Char}, ciStr s s' →
    OptRel ciStr (matchLitCI lit s) (matchLitCI lit s') := by
  induction lit with
  | nil => intro s s' h; exact h
  | cons lc lt ih =>
    intro s s' h
    cases s with
    | nil =>
      have hs' : s' = [] := (ciStr_nil_iff h).mp rfl
      subst hs'
      trivial
    | cons c t =>
      cases s' with
      | nil => exact absurd (ciStr_length h) (by simp)
      | cons c' t' =>
        obtain ⟨h1, h2⟩ := ciStr_cons_iff.mp h
        simp only [matchLitCI]
        by_cases he : lc.toLower = c.toLower
        · rw [if_pos he, if_pos (he.trans h1)]
          exact ih h2
        · rw [if_neg he, if_neg (fun hx => he (hx.trans h1.symm))]
          trivial

theorem segFind_rel {α α' : Type} {R : α → α' → Prop} (lit : List Char)
    {s s' : List Char} (hss : ciStr s s')
    {cont : List Char → List Char → Option α}
    {cont' : List Char → List Char → Option α'}
    (hcont : ∀ g g' rest rest', ciStr g g' → ciStr rest rest' →
      OptRel R (cont g rest) (cont' g' rest')) :
    OptRel R (segFind lit s cont) (segFind lit s' cont') := by
  unfold segFind
  rw [← ciStr_sRun hss]
  apply findSome?_rel
  intro k _
  dsimp only
  have hdk : ciStr (s.drop k) (s'.drop k) := ciStr_drop k hss
  rw [← ciStr_length hdk]
  apply findSome?_rel
  intro j _
  dsimp only
  have hdj : ciStr ((s.drop k).drop (j + 1)) ((s'.drop k).drop (j + 1)) :=
    ciStr_drop _ hdk
  rw [← ciStr_sRun hdj]
  apply findSome?_rel
  intro m _
  dsimp only
  have hdm := ciStr_drop m hdj
  have hrel := matchLitCI_rel lit hdm
  cases hA : matchLitCI lit (((s.drop k).drop (j + 1)).drop m) with
  | some rest =>
    cases hB : matchLitCI lit (((s'.drop k).drop (j + 1)).drop m) with
    | some rest' =>
      rw [hA, hB] at hrel
      exact hcont _ _ _ _ (ciStr_take _ hdk) hrel
    | none => rw [hA, hB] at hrel; exact False.elim hrel
  | none =>
    cases hB : matchLitCI lit (((s'.drop k).drop (j + 1)).drop m) with
    | some rest' => rw [hA, hB] at hrel; exact False.elim hrel
    | none => trivial

theorem tailFind_rel {s s' : List Char} (hss : ciStr s s') :
    OptRel ciStr (tailFind s) (tailFind s') := by
  unfold tailFind
  rw [← ciStr_sRun hss]
  apply findSome?_rel
  intro k _
  dsimp only
  have hdk := ciStr_drop k hss
  have hemp : (s.drop k).isEmpty = (s'.drop k).isEmpty := ciStr_isEmpty hdk
  rw [← hemp]
  by_cases hie : (s.drop k).isEmpty = true
  · rw [if_pos hie, if_pos hie]; trivial
  · rw [if_neg hie, if_neg hie]; exact hdk

theorem matchAt_rel {s s' : List Char} (hss : ciStr s s') :
    OptRel TripleCI (matchAt s) (matchAt s') := by
  unfold matchAt
  have hrel := matchLitCI_rel intentLit hss
  cases hA : matchLitCI intentLit s with
  | none =>
    cases hB : matchLitCI intentLit s' with
    | none => trivial
    | some s1' => rw [hA, hB] at hrel; exact False.elim hrel
  | some s1 =>
    cases hB : matchLitCI intentLit s' with
    | none => rw [hA, hB] at hrel; exact False.elim hrel
    | some s1' =>
      rw [hA, hB] at hrel
      apply segFind_rel nodeLit hrel
      intro g g' rest rest' hgg hrr
      apply segFind_rel reasonLit hrr
      intro g2 g2' rest2 rest2' hg2 hr2
      have htl := tailFind_rel hr2
      cases hT : tailFind rest2 with
      | none =>
        cases hT' : tailFind rest2' with
        | none => trivial
        | some r' => rw [hT, hT'] at htl; exact False.elim htl
      | some r =>
        cases hT' : tailFind rest2' with
        | none => rw [hT, hT'] at htl; exact False.elim htl
        | some r' =>
          rw [hT, hT'] at htl
          exact ⟨hgg, hg2, htl⟩

theorem searchTriple_rel : ∀ {s s' : List Char}, ciStr s s' →
    OptRel TripleCI (searchTriple s) (searchTriple s') := by
  intro s
  induction s with
  | nil =>
    intro s' h
    have hs' : s' = [] := (ciStr_nil_iff h).mp rfl
    subst hs'
    rw [searchTriple]
    exact matchAt_rel h
  | cons c t ih =>
    intro s' h
    cases s' with
    | nil => exact absurd (ciStr_length h) (by simp)
    | cons c' t' =>
      rw [searchTriple, searchTriple]
      have hma := matchAt_rel h
      cases hA : matchAt (c :: t) with
      | some v =>
        cases hB : matchAt (c' :: t') with
        | some v' => rw [hA, hB] at hma; exact hma
        | none => rw [hA, hB] at hma; exact False.elim hma
      | none =>
        cases hB : matchAt (c' :: t') with
        | some v' => rw [hA, hB] at hma; exact False.elim hma
        | none => exact ih (ciStr_cons_iff.mp h).2

lemma validate_rel {s s' : String} (h : ciStr s.data s'.data) :
    OptRel (fun t t' : String × String × String =>
        ciStr t.1.data t'.1.data ∧ ciStr t.2.1.data t'.2.1.data ∧
          ciStr t.2.2.data t'.2.2.data)
      (validate_and_extract_llm_content s)
      (validate_and_extract_llm_content s') := by
  unfold validate_and_extract_llm_content
  have hst := searchTriple_rel (ciStr_cleanL h)
  cases hA : searchTriple (cleanL s.data) with
  | none =>
    cases hB : searchTriple (cleanL s'.data) with
    | none => trivial
    | some t' => rw [hA, hB] at hst; exact False.elim hst
  | some t =>
    cases hB : searchTriple (cleanL s'.data) with
    | none => rw [hA, hB] at hst; exact False.elim hst
    | some t' =>
      rw [hA, hB] at hst
      obtain ⟨i0, n0, r0⟩ := t
      obtain ⟨i0', n0', r0'⟩ := t'
      obtain ⟨h1, h2, h3⟩ := hst
      have p1 := ciStr_pystrip h1
      have p2 := ciStr_pystrip h2
      have p3 := ciStr_pystrip h3
      dsimp only
      rw [← ciStr_isEmpty p1, ← ciStr_isEmpty p2, ← ciStr_isEmpty p3]
      by_cases hc : ((pystrip i0).isEmpty || (pystrip n0).isEmpty
          || (pystrip r0).isEmpty) = true
      · rw [if_pos hc, if_pos hc]; trivial
      · rw [if_neg hc, if_neg hc]
        exact ⟨p1, p2, p3⟩

/-- C5 counterexample: re-casing only characters that lie inside
case-insensitive occurrences of the label tokens can change the extracted
content - here the token `Node:` occurring inside the reason field is
re-cased to `NODE:`, and the returned reason changes with it, so the result
of extraction is not literally invariant. -/
theorem label_recase_counterexample :
    LabelRecase ("Intent: a Node: b Reason: c Node: d" : String).data
        ("Intent: a Node: b Reason: c NODE: d" : String).data ∧
      validate_and_extract_llm_content "Intent: a Node: b Reason: c Node: d" ≠
        validate_and_extract_llm_content "Intent: a Node: b Reason: c NODE: d" :=
  ⟨by decide, by decide⟩

/-- C5 (amended): re-casing label tokens never changes the validity outcome
of extraction, and the extracted intent, node and reason are preserved up to
the applied re-casing (case-insensitively equal); exact equality of the
extracted values holds only when no re-cased token occurrence lies inside a
field value. -/
theorem label_recase_ci (s s' : String) (h : LabelRecase s.data s'.data) :
    ((validate_and_extract_llm_content s).isSome =
        (validate_and_extract_llm_content s').isSome) ∧
      ∀ i n r i' n' r',
        validate_and_extract_llm_content s = some (i, n, r) →
        validate_and_extract_llm_content s' = some (i', n', r') →
        ciStr i.data i'.data ∧ ciStr n.data n'.data ∧ ciStr r.data r'.data := by
  have hrel := validate_rel h.1
  constructor
  · cases hA : validate_and_extract_llm_content s with
    | none =>
      cases hB : validate_and_extract_llm_content s' with
      | none => rfl
      | some t' => rw [hA, hB] at hrel; exact False.elim hrel
    | some t =>
      cases hB : validate_and_extract_llm_content s' with
      | none => rw [hA, hB] at hrel; exact False.elim hrel
      | some t' => rfl
  · intro i n r i' n' r' hA hB
    rw [hA, hB] at hrel
    exact hrel

theorem label_recase_ci_witness :
    LabelRecase ("Intent: a Node: b Reason: c" : String).data
        ("iNtEnT: a nOdE: b rEaSoN: c" : String).data ∧
      (((validate_and_extract_llm_content "Intent: a Node: b Reason: c").isSome =
          (validate_and_extract_llm_content "iNtEnT: a nOdE: b rEaSoN: c").isSome) ∧
        ∀ i n r i' n' r',
          validate_and_extract_llm_content "Intent: a Node: b Reason: c" =
            some (i, n, r) →
          validate_and_extract_llm_content "iNtEnT: a nOdE: b rEaSoN: c" =
            some (i', n', r') →
          ciStr i.data i'.data ∧ ciStr n.data n'.data ∧ ciStr r.data r'.data) :=
  ⟨by decide,
    label_recase_ci "Intent: a Node: b Reason: c" "iNtEnT: a nOdE: b rEaSoN: c"
      (by decide)⟩
